import Mathlib

/-!
Verification of the RadixAttention cache manager of the `mlxvllm`
repository.  The Go sources `internal/radix/node.go` and the tree
implementation (`Tree`, `Match`, `InsertPending`, `findExactOrPending`,
`findParentFor`, `Unpin`, `PrunePoisoned`) are shallowly embedded below:
pointers become node identifiers into an explicit heap, the one-shot
`ready` channel becomes a Boolean gate, and Go maps become association
lists.  The HTTP health handler of `internal/http/handler.go` is embedded
as a pure function.
-/

set_option autoImplicit false
set_option linter.unusedVariables false

namespace Radix

/-! ## Association-list helpers (Go `map[uint32]*Node` and the node heap) -/

/-- Lookup in an association list (Go map read). -/
def alGet {α : Type} (l : List (Nat × α)) (k : Nat) : Option α :=
  (l.find? (fun p => p.1 == k)).map Prod.snd

/-- Replace the value stored at an existing key. -/
def alSet {α : Type} (l : List (Nat × α)) (k : Nat) (v : α) : List (Nat × α) :=
  l.map (fun p => if p.1 == k then (k, v) else p)

/-- Go map assignment `m[k] = v`: replace if present, append otherwise. -/
def alPut {α : Type} (l : List (Nat × α)) (k : Nat) (v : α) : List (Nat × α) :=
  if l.any (fun p => p.1 == k) then alSet l k v else l ++ [(k, v)]

theorem alGet_nil {α : Type} (k : Nat) : alGet ([] : List (Nat × α)) k = none := rfl

theorem alGet_cons {α : Type} (p : Nat × α) (l : List (Nat × α)) (k : Nat) :
    alGet (p :: l) k = if p.1 = k then some p.2 else alGet l k := by
  by_cases h : p.1 = k <;> simp [alGet, List.find?_cons, h]

theorem alGet_alSet_self {α : Type} (l : List (Nat × α)) (k : Nat) (v : α) :
    alGet (alSet l k v) k = if (alGet l k).isSome then some v else none := by
  induction l with
  | nil => simp [alGet, alSet]
  | cons p t ih =>
    by_cases h : p.1 = k
    · simp [alSet, alGet_cons, h]
    · simpa [alSet, alGet_cons, h] using ih

theorem alSet_cons {α : Type} (p : Nat × α) (l : List (Nat × α)) (k : Nat) (v : α) :
    alSet (p :: l) k v = (if p.1 = k then (k, v) else p) :: alSet l k v := by
  by_cases h : p.1 = k <;> simp [alSet, h]

theorem alGet_alSet_ne {α : Type} (l : List (Nat × α)) (k k' : Nat) (v : α)
    (h : k' ≠ k) : alGet (alSet l k v) k' = alGet l k' := by
  induction l with
  | nil => simp [alGet, alSet]
  | cons p t ih =>
    rw [alSet_cons]
    by_cases hp : p.1 = k
    · simp only [hp, if_true]
      rw [alGet_cons, alGet_cons, hp]
      simp [Ne.symm h, ih]
    · simp only [hp, if_false]
      rw [alGet_cons, alGet_cons]
      split <;> simp_all

theorem alGet_append {α : Type} (l m : List (Nat × α)) (k : Nat) :
    alGet (l ++ m) k = ((alGet l k).or (alGet m k)) := by
  induction l with
  | nil => simp [alGet]
  | cons p t ih =>
    rw [List.cons_append, alGet_cons, alGet_cons]
    split <;> simp_all

theorem alSet_keys {α : Type} (l : List (Nat × α)) (k : Nat) (v : α) :
    (alSet l k v).map Prod.fst = l.map Prod.fst := by
  induction l with
  | nil => rfl
  | cons p t ih =>
    rw [alSet_cons]
    by_cases h : p.1 = k <;> simp_all

theorem alGet_mem {α : Type} (l : List (Nat × α)) (k : Nat) (v : α)
    (h : alGet l k = some v) : (k, v) ∈ l := by
  induction l with
  | nil => simp [alGet] at h
  | cons p t ih =>
    rw [alGet_cons] at h
    by_cases hp : p.1 = k
    · simp only [hp, if_true, Option.some.injEq] at h
      obtain ⟨a, b⟩ := p
      dsimp at hp h
      subst hp
      subst h
      exact List.mem_cons_self _ _
    · simp only [hp, if_false] at h
      exact List.mem_cons_of_mem _ (ih h)

theorem alGet_isSome_iff {α : Type} (l : List (Nat × α)) (k : Nat) :
    (alGet l k).isSome ↔ k ∈ l.map Prod.fst := by
  induction l with
  | nil => simp [alGet]
  | cons p t ih =>
    rw [alGet_cons, List.map_cons]
    by_cases hp : p.1 = k
    · simp [hp]
    · simp only [hp, if_false, List.mem_cons]
      rw [ih]
      constructor
      · exact Or.inr
      · rintro (h | h)
        · exact absurd h.symm hp
        · exact h

theorem mem_alGet_of_nodup {α : Type} (l : List (Nat × α)) (k : Nat) (v : α)
    (hd : (l.map Prod.fst).Nodup) (h : (k, v) ∈ l) : alGet l k = some v := by
  induction l with
  | nil => simp at h
  | cons p t ih =>
    rw [List.map_cons, List.nodup_cons] at hd
    rw [alGet_cons]
    rcases List.mem_cons.mp h with h1 | h1
    · simp [← h1]
    · have hk : p.1 ≠ k := by
        intro hk
        exact hd.1 (hk ▸ List.mem_map_of_mem Prod.fst h1)
      simp only [hk, if_false]
      exact ih hd.2 h1

theorem mem_alPut_self {α : Type} (l : List (Nat × α)) (k : Nat) (v : α) :
    (k, v) ∈ alPut l k v := by
  unfold alPut
  split
  · next hany =>
    rcases List.any_eq_true.mp hany with ⟨p, hp, he⟩
    have hk : p.1 = k := by simpa using he
    have : alGet (alSet l k v) k = some v := by
      rw [alGet_alSet_self]
      have : (alGet l k).isSome := by
        rw [alGet_isSome_iff]
        exact hk ▸ List.mem_map_of_mem Prod.fst hp
      simp [this]
    exact alGet_mem _ _ _ this
  · simp

theorem mem_alSet_elim {α : Type} (l : List (Nat × α)) (k k' : Nat) (v v' : α)
    (h : (k', v') ∈ alSet l k v) : (k' = k ∧ v' = v) ∨ (k', v') ∈ l := by
  induction l with
  | nil => simp [alSet] at h
  | cons p t ih =>
    rw [alSet_cons] at h
    rcases List.mem_cons.mp h with h1 | h1
    · by_cases hp : p.1 = k
      · simp only [hp, if_true] at h1
        exact Or.inl ⟨congrArg Prod.fst h1, congrArg Prod.snd h1⟩
      · simp only [hp, if_false] at h1
        exact Or.inr (h1 ▸ List.mem_cons_self _ _)
    · rcases ih h1 with h2 | h2
      · exact Or.inl h2
      · exact Or.inr (List.mem_cons_of_mem _ h2)

theorem mem_alPut_elim {α : Type} (l : List (Nat × α)) (k k' : Nat) (v v' : α)
    (h : (k', v') ∈ alPut l k v) : (k' = k ∧ v' = v) ∨ (k', v') ∈ l := by
  unfold alPut at h
  split at h
  · exact mem_alSet_elim l k k' v v' h
  · rcases List.mem_append.mp h with h1 | h1
    · exact Or.inr h1
    · left
      simpa using h1

theorem alGet_alPut_self {α : Type} (l : List (Nat × α)) (k : Nat) (v : α) :
    alGet (alPut l k v) k = some v := by
  unfold alPut
  split
  · next hany =>
    rw [alGet_alSet_self]
    rcases List.any_eq_true.mp hany with ⟨p, hp, he⟩
    have hk : p.1 = k := by simpa using he
    have : (alGet l k).isSome := by
      rw [alGet_isSome_iff]
      exact hk ▸ List.mem_map_of_mem Prod.fst hp
    simp [this]
  · next hany =>
    rw [alGet_append]
    have : alGet l k = none := by
      rcases h : alGet l k with _ | v'
      · rfl
      · exact absurd (List.any_eq_true.mpr ⟨(k, v'), alGet_mem _ _ _ h, by simp⟩) hany
    simp [this, alGet_cons]

theorem alGet_alPut_ne {α : Type} (l : List (Nat × α)) (k k' : Nat) (v : α)
    (h : k' ≠ k) : alGet (alPut l k v) k' = alGet l k' := by
  unfold alPut
  split
  · exact alGet_alSet_ne l k k' v h
  · rw [alGet_append, alGet_cons]
    simp only [Ne.symm h, if_false, alGet_nil]
    rcases alGet l k' <;> simp

theorem alPut_keys_nodup {α : Type} (l : List (Nat × α)) (k : Nat) (v : α)
    (hd : (l.map Prod.fst).Nodup) : ((alPut l k v).map Prod.fst).Nodup := by
  unfold alPut
  split
  · rw [alSet_keys]
    exact hd
  · next hany =>
    rw [List.map_append, List.map_cons, List.map_nil]
    rw [List.nodup_append]
    refine ⟨hd, List.nodup_singleton k, ?_⟩
    intro a ha hb
    have hak : a = k := by simpa using hb
    rcases List.mem_map.mp ha with ⟨p, hp, hpa⟩
    exact absurd (List.any_eq_true.mpr ⟨p, hp, by simp [hpa, hak]⟩) hany

/-! ## Token-sequence prefixes and `longestCommonPrefix` -/

/-- `Pfx p q`: the token sequence `p` is a prefix of `q`. -/
def Pfx (p q : List Nat) : Prop := q.take p.length = p

instance (p q : List Nat) : Decidable (Pfx p q) := by
  unfold Pfx
  infer_instance

theorem Pfx_iff_exists (p q : List Nat) : Pfx p q ↔ ∃ t, p ++ t = q := by
  constructor
  · intro h
    refine ⟨q.drop p.length, ?_⟩
    calc p ++ q.drop p.length = q.take p.length ++ q.drop p.length := by rw [h]
      _ = q := List.take_append_drop _ q
  · rintro ⟨t, rfl⟩
    unfold Pfx
    rw [List.take_append_eq_append_take, Nat.sub_self, List.take_zero,
      List.append_nil, List.take_of_length_le (Nat.le_refl _)]

theorem Pfx_nil (q : List Nat) : Pfx [] q := rfl

theorem Pfx_refl (p : List Nat) : Pfx p p := by
  rw [Pfx_iff_exists]
  exact ⟨[], List.append_nil p⟩

theorem Pfx_append (p t : List Nat) : Pfx p (p ++ t) := by
  rw [Pfx_iff_exists]
  exact ⟨t, rfl⟩

theorem Pfx_length_le {p q : List Nat} (h : Pfx p q) : p.length ≤ q.length := by
  rw [Pfx_iff_exists] at h
  rcases h with ⟨t, rfl⟩
  simp

theorem Pfx_trans {a b c : List Nat} (h1 : Pfx a b) (h2 : Pfx b c) : Pfx a c := by
  rw [Pfx_iff_exists] at h1 h2 ⊢
  rcases h1 with ⟨t1, rfl⟩
  rcases h2 with ⟨t2, rfl⟩
  exact ⟨t1 ++ t2, (List.append_assoc a t1 t2).symm⟩

theorem Pfx_append_cancel {a b c : List Nat} (h : Pfx (a ++ b) (a ++ c)) : Pfx b c := by
  rw [Pfx_iff_exists] at h ⊢
  rcases h with ⟨t, ht⟩
  rw [List.append_assoc] at ht
  exact ⟨t, List.append_cancel_left ht⟩

theorem Pfx_append_congr {a b c : List Nat} (h : Pfx b c) : Pfx (a ++ b) (a ++ c) := by
  rw [Pfx_iff_exists] at h ⊢
  rcases h with ⟨t, rfl⟩
  exact ⟨t, List.append_assoc a b t⟩

theorem Pfx_antisymm {a b : List Nat} (h1 : Pfx a b) (h2 : Pfx b a) : a = b := by
  have l1 := Pfx_length_le h1
  have l2 := Pfx_length_le h2
  rw [Pfx_iff_exists] at h1
  rcases h1 with ⟨t, rfl⟩
  have : t = [] := by
    rw [List.length_append] at l2
    exact List.eq_nil_of_length_eq_zero (by omega)
  simp [this]

theorem Pfx_head {p q : List Nat} (h : Pfx p q) (hne : p ≠ []) :
    p.headD 0 = q.headD 0 := by
  rw [Pfx_iff_exists] at h
  rcases h with ⟨t, rfl⟩
  rcases p with _ | ⟨x, xs⟩
  · exact absurd rfl hne
  · rfl

theorem Pfx_total {a b q : List Nat} (h1 : Pfx a q) (h2 : Pfx b q)
    (hl : a.length ≤ b.length) : Pfx a b := by
  rw [Pfx_iff_exists] at h2
  rcases h2 with ⟨t2, rfl⟩
  unfold Pfx at h1 ⊢
  rw [List.take_append_of_le_length hl] at h1
  exact h1

/-- `longestCommonPrefix` (tree.go): the length of the longest common
prefix of two token sequences, computed element by element. -/
def longestCommonPrefix : List Nat → List Nat → Nat
  | a :: as, b :: bs => if a = b then longestCommonPrefix as bs + 1 else 0
  | _, _ => 0

theorem lcp_nil_left (b : List Nat) : longestCommonPrefix [] b = 0 := by
  cases b <;> rfl

theorem lcp_nil_right (a : List Nat) : longestCommonPrefix a [] = 0 := by
  cases a <;> rfl

theorem lcp_le_left (a b : List Nat) : longestCommonPrefix a b ≤ a.length := by
  induction a generalizing b with
  | nil => simp [lcp_nil_left]
  | cons x xs ih =>
    cases b with
    | nil => simp [lcp_nil_right]
    | cons y ys =>
      unfold longestCommonPrefix
      split
      · simpa using ih ys
      · simp

theorem lcp_le_right (a b : List Nat) : longestCommonPrefix a b ≤ b.length := by
  induction a generalizing b with
  | nil => simp [lcp_nil_left]
  | cons x xs ih =>
    cases b with
    | nil => simp [lcp_nil_right]
    | cons y ys =>
      unfold longestCommonPrefix
      split
      · simpa using ih ys
      · simp

theorem lcp_take (a b : List Nat) :
    a.take (longestCommonPrefix a b) = b.take (longestCommonPrefix a b) := by
  induction a generalizing b with
  | nil => simp [lcp_nil_left]
  | cons x xs ih =>
    cases b with
    | nil => simp [lcp_nil_right]
    | cons y ys =>
      unfold longestCommonPrefix
      split
      · next he => simp [he, ih ys]
      · simp

theorem lcp_of_pfx_right {a b : List Nat} (h : Pfx b a) :
    longestCommonPrefix a b = b.length := by
  rw [Pfx_iff_exists] at h
  rcases h with ⟨t, rfl⟩
  induction b with
  | nil => simp [lcp_nil_left, lcp_nil_right]
  | cons x xs ih =>
    unfold longestCommonPrefix
    simpa using ih

theorem lcp_self (a : List Nat) : longestCommonPrefix a a = a.length :=
  lcp_of_pfx_right (Pfx_refl a)

theorem pfx_of_lcp_right {a b : List Nat}
    (h : longestCommonPrefix a b = b.length) : Pfx b a := by
  unfold Pfx
  rw [← h, lcp_take a b, h, List.take_length]

theorem pfx_of_lcp_left {a b : List Nat}
    (h : longestCommonPrefix a b = a.length) : Pfx a b := by
  unfold Pfx
  rw [← h, ← lcp_take a b, h, List.take_length]

/-! ## The data model (`internal/radix/node.go`) -/

/-- Go `error` values, compared by message. -/
abbrev Err := String

/-- `Node` (node.go).  The Go `ready` channel is the Boolean `closedGate`
(`true` once `close(n.ready)` has run); `Children` is the
`map[uint32]*Node` from first token to child, as an association list of
node identifiers; `Parent` is the parent pointer; the remaining fields
are carried directly. -/
structure Node where
  Tokens : List Nat
  Children : List (Nat × Nat)
  Parent : Option Nat
  CacheHandle : Nat
  closedGate : Bool
  err : Option Err
  refCount : Int
  lruElem : Bool
  deriving Repr, DecidableEq

/-- `NewNode` (node.go): a pending node with an open gate. -/
def NewNode (tokens : List Nat) (parent : Option Nat) : Node :=
  { Tokens := tokens, Children := [], Parent := parent, CacheHandle := 0,
    closedGate := false, err := none, refCount := 0, lruElem := false }

/-- Go `close(ch)` on the `ready` channel: panics when already closed. -/
def closeGate (n : Node) : Except String Node :=
  if n.closedGate then Except.error "close of closed channel"
  else Except.ok { n with closedGate := true }

/-- `FinalizeNode` (node.go): store the cache handle, then close the gate. -/
def FinalizeNode (n : Node) (handle : Nat) : Except String Node :=
  closeGate { n with CacheHandle := handle }

/-- `PoisonNode` (node.go): store the error, then close the gate. -/
def PoisonNode (n : Node) (e : Err) : Except String Node :=
  closeGate { n with err := some e }

/-- `IsReady` (node.go): non-blocking test whether the gate is closed
(true after `FinalizeNode` and after `PoisonNode`). -/
def IsReady (n : Node) : Bool := n.closedGate

/-- `Wait` (node.go): receive on the gate, then return `n.err`.
`none` models the execution that blocks forever on a pending node. -/
def Wait (n : Node) : Option (Option Err) :=
  if n.closedGate then some n.err else none

/-- `Tree` (tree.go): root node, LRU list and, in this embedding, the
explicit heap of nodes (`nodes`) with a fresh-identifier counter.  The
struct has no token meter and no capacity field. -/
structure Tree where
  nodes : List (Nat × Node)
  rootId : Nat
  lruList : List Nat
  nextId : Nat
  deriving Repr, DecidableEq

/-- Dereference a node pointer. -/
def getNode (s : Tree) (nid : Nat) : Option Node := alGet s.nodes nid

/-- Overwrite a node in the heap (Go mutates through the pointer). -/
def setNode (s : Tree) (nid : Nat) (n : Node) : Tree :=
  { s with nodes := alSet s.nodes nid n }

/-- `NewTree` (tree.go): a root node with no tokens and an empty LRU list. -/
def NewTree : Tree :=
  { nodes := [(0, NewNode [] none)], rootId := 0, lruList := [], nextId := 1 }

/-- Go map read `n.Children[k]`. -/
def lookupChild (n : Node) (k : Nat) : Option Nat := alGet n.Children k

/-! ## The tree operations (tree.go) -/

/-- The loop of the internal `match` (tree.go): `cur` is `current`,
`best` is `bestMatch`.  Every `break` of the Go loop returns the current
best; descending consumes the child's whole non-empty matched edge, so
the loop runs at most `tokens.length` iterations: `fuel` is one more
than that and never runs out when called through `Match`. -/
def matchLoop : Nat → Tree → Nat → List Nat → Option Nat → Option Nat
  | 0, _, _, _, best => best
  | fuel + 1, s, cur, tokens, best =>
    if tokens = [] then best
    else
      match getNode s cur with
      | none => best
      | some n =>
        match lookupChild n (tokens.headD 0) with
        | none => best
        | some cid =>
          match getNode s cid with
          | none => best
          | some child =>
            let common := longestCommonPrefix tokens child.Tokens
            if common = 0 then best
            else if common = child.Tokens.length then
              matchLoop fuel s cid (tokens.drop common)
                (if IsReady child then some cid else best)
            else if common = tokens.length ∧ IsReady child then some cid
            else best

/-- `Tree.Match` / internal `match` (tree.go): longest-prefix lookup.
Returns the root itself on an empty query, `none` when nothing matched. -/
def Match (s : Tree) (tokens : List Nat) : Option Nat :=
  if tokens = [] then some s.rootId
  else matchLoop (tokens.length + 1) s s.rootId tokens none

/-- `findExactOrPending` (tree.go).  Each continuing iteration consumes
the matched child's whole edge; `fuel` (one more than the query length
at the public call sites) runs out — result `none` — exactly when the
source loop would spin forever on an attached empty edge, which cannot
occur in API-built trees. -/
def findExactOrPending : Nat → Tree → List Nat → Nat → Option (Option Nat × List Nat)
  | 0, _, _, _ => none
  | fuel + 1, s, tokens, start =>
    if tokens = [] then some (some start, [])
    else
      match getNode s start with
      | none => some (none, tokens)
      | some n =>
        match lookupChild n (tokens.headD 0) with
        | none => some (none, tokens)
        | some cid =>
          match getNode s cid with
          | none => some (none, tokens)
          | some child =>
            let common := longestCommonPrefix tokens child.Tokens
            if common = child.Tokens.length ∧ common = tokens.length then
              if child.err ≠ none then some (none, tokens)
              else some (some cid, [])
            else if common = child.Tokens.length then
              findExactOrPending fuel s (tokens.drop common) cid
            else some (none, tokens)

/-- `findParentFor` (tree.go); fuel exhaustion (`none`) again marks
source-level divergence on an empty-edged child. -/
def findParentFor : Nat → Tree → List Nat → Nat → Option Nat
  | 0, _, _, _ => none
  | fuel + 1, s, tokens, start =>
    if tokens = [] then some start
    else
      match getNode s start with
      | none => some start
      | some n =>
        match lookupChild n (tokens.headD 0) with
        | none => some start
        | some cid =>
          match getNode s cid with
          | none => some start
          | some child =>
            let common := longestCommonPrefix tokens child.Tokens
            if child.err ≠ none ∧ tokens.length ≤ common then
              findParentFor fuel s (tokens.drop common) cid
            else if common = child.Tokens.length then
              findParentFor fuel s (tokens.drop common) cid
            else some start

/-- `InsertPending` (tree.go).  The `engine` argument never reaches an
engine call in the source; it is modelled by `elog`, the log of
`ForwardWithCache` invocations, which the body returns untouched.
Result: updated tree, returned node id, engine log.  `none` only on the
divergent executions marked above. -/
def InsertPending (s : Tree) (tokens : List Nat) (elog : List (List Nat)) :
    Option (Tree × Nat × List (List Nat)) :=
  match findExactOrPending (tokens.length + 1) s tokens s.rootId with
  | none => none
  | some (some nid, _) =>
    match getNode s nid with
    | none => none
    | some n => some (setNode s nid { n with refCount := n.refCount + 1 }, nid, elog)
  | some (none, remaining) =>
    match findParentFor (tokens.length + 1) s tokens s.rootId with
    | none => none
    | some parent =>
      let nid := s.nextId
      let node := { NewNode remaining (some parent) with refCount := 1 }
      let s1 : Tree := { s with nodes := s.nodes ++ [(nid, node)], nextId := nid + 1 }
      let s2 :=
        if remaining.isEmpty then s1
        else
          match getNode s1 parent with
          | none => s1
          | some p =>
            setNode s1 parent
              { p with Children := alPut p.Children (remaining.headD 0) nid }
      some (s2, nid, elog)

/-- `Unpin` (tree.go): decrement the pin count; push a childless,
gate-closed, unlisted node whose count reached zero to the LRU front. -/
def Unpin (s : Tree) (nid : Nat) : Tree :=
  match getNode s nid with
  | none => s
  | some n =>
    let newCount := n.refCount - 1
    if newCount < 0 then s
    else if newCount = 0 ∧ n.Children.isEmpty ∧ IsReady n ∧ n.lruElem = false then
      let s2 := setNode s nid { n with refCount := newCount, lruElem := true }
      { s2 with lruList := nid :: s2.lruList }
    else setNode s nid { n with refCount := newCount }

/-- The recursion of `prunePoisonedRecursive` (tree.go): prune each
child's subtree, then drop the children found poisoned; report whether
this node itself is poisoned.  `fuel` bounds the depth; one more than
the heap size is enough for every tree the API builds. -/
def pruneRec : Nat → Tree → Nat → Tree × Bool
  | 0, s, _ => (s, false)
  | fuel + 1, s, nid =>
    match getNode s nid with
    | none => (s, false)
    | some n =>
      let folded := n.Children.foldl
        (fun (acc : Tree × List Nat) kc =>
          let res := pruneRec fuel acc.1 kc.2
          (res.1, if res.2 then acc.2 ++ [kc.1] else acc.2))
        (s, [])
      match getNode folded.1 nid with
      | none => (folded.1, false)
      | some n1 =>
        (setNode folded.1 nid
          { n1 with Children :=
              n1.Children.filter (fun kc => ¬ folded.2.contains kc.1) },
         n.err ≠ none)

/-- `PrunePoisoned` (tree.go): prune from the root. -/
def PrunePoisoned (s : Tree) : Tree :=
  (pruneRec (s.nodes.length + 1) s s.rootId).1

/-! ## The health endpoint (`internal/http/handler.go`) -/

/-- `HealthCheckHandler`: HTTP status and JSON body (the encoded
`map[string]string`, `none` for the plain-text error path).  The server's
model state `modelLoaded` is available on the receiver but the handler
never consults it. -/
def HealthCheckHandler (modelLoaded : Bool) (method : String) :
    Nat × Option (List (String × String)) :=
  if method ≠ "GET" then (405, none)
  else (200, some [("status", "ok")])

/-! ## Operation sequences over a tree -/

/-- The public operations the claims quantify over. -/
inductive Op where
  | insertPending (tokens : List Nat)
  | finalize (nid : Nat) (handle : Nat)
  | poison (nid : Nat) (e : Err)
  | unpin (nid : Nat)
  | prunePoisoned
  deriving Repr, DecidableEq

/-- Apply one operation.  `none` marks executions the Go program cannot
complete normally: `FinalizeNode`/`PoisonNode` panicking on a closed
gate, operating through a dangling pointer, or the divergence cases. -/
def stepOp (s : Tree) : Op → Option Tree
  | Op.insertPending ts => (InsertPending s ts []).map (fun r => r.1)
  | Op.finalize nid h =>
    match getNode s nid with
    | none => none
    | some n =>
      match FinalizeNode n h with
      | Except.error _ => none
      | Except.ok n1 => some (setNode s nid n1)
  | Op.poison nid e =>
    match getNode s nid with
    | none => none
    | some n =>
      match PoisonNode n e with
      | Except.error _ => none
      | Except.ok n1 => some (setNode s nid n1)
  | Op.unpin nid => if (getNode s nid).isSome then some (Unpin s nid) else none
  | Op.prunePoisoned => some (PrunePoisoned s)

/-- Run a list of operations from the empty tree. -/
def execOps (ops : List Op) : Option Tree :=
  ops.foldl (fun acc op => acc.bind (fun s => stepOp s op)) (some NewTree)

/-- Trees reachable from `NewTree` through operations satisfying `P`. -/
inductive ReachW (P : Op → Prop) : Tree → Prop where
  | init : ReachW P NewTree
  | step {s s' : Tree} {op : Op} : ReachW P s → P op → stepOp s op = some s' →
      ReachW P s'

/-- Trees reachable through any operation sequence. -/
def Reach (s : Tree) : Prop := ReachW (fun _ => True) s

/-- Operations used by the match-correctness claim: inserts and
finalizations only. -/
def isInsertOrFinalize : Op → Prop
  | Op.insertPending _ => True
  | Op.finalize _ _ => True
  | _ => False

/-- Trees built by `InsertPending` and `FinalizeNode` operations. -/
def IFReach (s : Tree) : Prop := ReachW isInsertOrFinalize s

/-- Operations that are not `PoisonNode`. -/
def isNotPoison : Op → Prop
  | Op.poison _ _ => False
  | _ => True

/-- Trees built without ever poisoning a node. -/
def NPReach (s : Tree) : Prop := ReachW isNotPoison s

theorem ReachW_mono {P Q : Op → Prop} (h : ∀ op, P op → Q op) {s : Tree}
    (hs : ReachW P s) : ReachW Q s := by
  induction hs with
  | init => exact ReachW.init
  | step hr hp hstep ih => exact ReachW.step ih (h _ hp) hstep

/-! ## Reachability of nodes inside a tree -/

/-- `ReachFrom s a b p`: starting from node `a`, following child edges
spells the token sequence `p` and ends at node `b`. -/
inductive ReachFrom (s : Tree) (start : Nat) : Nat → List Nat → Prop where
  | refl : ReachFrom s start start []
  | child {pid : Nat} {p : List Nat} {k cid : Nat} {n c : Node} :
      ReachFrom s start pid p → getNode s pid = some n →
      (k, cid) ∈ n.Children → getNode s cid = some c →
      ReachFrom s start cid (p ++ c.Tokens)

/-- `ReachesAt s nid p`: the root-to-node concatenation of edge tokens
for node `nid` is `p`. -/
def ReachesAt (s : Tree) (nid : Nat) (p : List Nat) : Prop :=
  ReachFrom s s.rootId nid p

/-! ## Heap lemmas -/

theorem getNode_setNode_self {s : Tree} {nid : Nat} {m n : Node}
    (h : getNode s nid = some m) : getNode (setNode s nid n) nid = some n := by
  unfold getNode setNode at *
  dsimp only
  rw [alGet_alSet_self, h]
  rfl

theorem getNode_setNode_ne {s : Tree} {nid mid : Nat} {n : Node}
    (h : mid ≠ nid) : getNode (setNode s nid n) mid = getNode s mid := by
  unfold getNode setNode
  exact alGet_alSet_ne _ _ _ _ h

theorem getNode_setNode_none {s : Tree} {nid : Nat} {n : Node}
    (h : getNode s nid = none) : getNode (setNode s nid n) nid = none := by
  unfold getNode setNode at *
  dsimp only
  rw [alGet_alSet_self, h]
  rfl

theorem setNode_rootId (s : Tree) (nid : Nat) (n : Node) :
    (setNode s nid n).rootId = s.rootId := rfl

theorem setNode_lruList (s : Tree) (nid : Nat) (n : Node) :
    (setNode s nid n).lruList = s.lruList := rfl

theorem setNode_nextId (s : Tree) (nid : Nat) (n : Node) :
    (setNode s nid n).nextId = s.nextId := rfl

theorem setNode_ids (s : Tree) (nid : Nat) (n : Node) :
    (setNode s nid n).nodes.map Prod.fst = s.nodes.map Prod.fst :=
  alSet_keys _ _ _

theorem getNode_append_old {s : Tree} {mid : Nat} {m : Node} (nid : Nat)
    (node : Node) (nx : Nat) (h : getNode s mid = some m) :
    getNode { s with nodes := s.nodes ++ [(nid, node)], nextId := nx } mid = some m := by
  unfold getNode at *
  dsimp only
  rw [alGet_append, h]
  rfl

theorem getNode_append_new {s : Tree} {nid : Nat} (node : Node) (nx : Nat)
    (h : getNode s nid = none) :
    getNode { s with nodes := s.nodes ++ [(nid, node)], nextId := nx } nid = some node := by
  unfold getNode at *
  dsimp only
  rw [alGet_append, h]
  rw [alGet_cons]
  simp

theorem getNode_append_other {s : Tree} {mid nid : Nat} (node : Node) (nx : Nat)
    (h : mid ≠ nid) :
    getNode { s with nodes := s.nodes ++ [(nid, node)], nextId := nx } mid =
      getNode s mid := by
  unfold getNode
  dsimp only
  rw [alGet_append, alGet_cons]
  simp only [Ne.symm h, if_false, alGet_nil]
  rcases alGet s.nodes mid <;> rfl

/-! ## Structural invariant of API-built trees -/

/-- The structural well-formedness every reachable tree enjoys. -/
structure Inv (s : Tree) : Prop where
  root_live : ∃ r, getNode s s.rootId = some r ∧ r.Tokens = []
  child_ok : ∀ pid n k cid, getNode s pid = some n → (k, cid) ∈ n.Children →
    ∃ c, getNode s cid = some c ∧ c.Tokens ≠ [] ∧ c.Tokens.headD 0 = k
  keys_nodup : ∀ pid n, getNode s pid = some n → (n.Children.map Prod.fst).Nodup
  ids_nodup : (s.nodes.map Prod.fst).Nodup
  ids_lt : ∀ nid, (getNode s nid).isSome → nid < s.nextId
  parent_uniq : ∀ p1 n1 k1 p2 n2 k2 cid, getNode s p1 = some n1 →
    getNode s p2 = some n2 → (k1, cid) ∈ n1.Children → (k2, cid) ∈ n2.Children →
    p1 = p2 ∧ k1 = k2
  root_not_child : ∀ pid n k, getNode s pid = some n → (k, s.rootId) ∉ n.Children

theorem Inv_NewTree : Inv NewTree := by
  constructor
  · exact ⟨NewNode [] none, rfl, rfl⟩
  · intro pid n k cid h hk
    rcases h1 : pid with _ | pid'
    · subst h1
      have : n = NewNode [] none := by
        have : getNode NewTree 0 = some (NewNode [] none) := rfl
        rw [this] at h
        exact (Option.some.injEq _ _ ▸ h).symm
      rw [this] at hk
      simp [NewNode] at hk
    · subst h1
      have : getNode NewTree (pid' + 1) = none := by
        unfold NewTree getNode
        rw [alGet_cons]
        simp [alGet]
      rw [this] at h
      cases h
  · intro pid n h
    rcases h1 : pid with _ | pid'
    · subst h1
      have : n = NewNode [] none := by
        have h0 : getNode NewTree 0 = some (NewNode [] none) := rfl
        rw [h0] at h
        exact (Option.some.injEq _ _ ▸ h).symm
      rw [this]
      simp [NewNode]
    · subst h1
      have : getNode NewTree (pid' + 1) = none := by
        unfold NewTree getNode
        rw [alGet_cons]
        simp [alGet]
      rw [this] at h
      cases h
  · simp [NewTree]
  · intro nid h
    rcases h1 : nid with _ | nid'
    · simp [NewTree]
    · subst h1
      have : getNode NewTree (nid' + 1) = none := by
        unfold NewTree getNode
        rw [alGet_cons]
        simp [alGet]
      rw [this] at h
      cases h
  · intro p1 n1 k1 p2 n2 k2 cid h1 h2 hk1 hk2
    have hz1 : p1 = 0 := by
      by_contra hne
      have : getNode NewTree p1 = none := by
        unfold NewTree getNode
        rw [alGet_cons]
        simp only [alGet_nil]
        split
        · next hh => exact absurd hh.symm hne
        · rfl
      rw [this] at h1
      cases h1
    subst hz1
    have hn1 : n1 = NewNode [] none := by
      have h0 : getNode NewTree 0 = some (NewNode [] none) := rfl
      rw [h0] at h1
      exact (Option.some.injEq _ _ ▸ h1).symm
    rw [hn1] at hk1
    simp [NewNode] at hk1
  · intro pid n k h hk
    have hz : pid = 0 := by
      by_contra hne
      have : getNode NewTree pid = none := by
        unfold NewTree getNode
        rw [alGet_cons]
        simp only [alGet_nil]
        split
        · next hh => exact absurd hh.symm hne
        · rfl
      rw [this] at h
      cases h
    subst hz
    have hn : n = NewNode [] none := by
      have h0 : getNode NewTree 0 = some (NewNode [] none) := rfl
      rw [h0] at h
      exact (Option.some.injEq _ _ ▸ h).symm
    rw [hn] at hk
    simp [NewNode] at hk

/-! ## Pruning only removes child links -/

/-- `s'` differs from `s` only in that nodes may have lost some child
links; every other field and the tree bookkeeping agree. -/
def Shrinks (s s' : Tree) : Prop :=
  s'.rootId = s.rootId ∧ s'.lruList = s.lruList ∧ s'.nextId = s.nextId ∧
  s'.nodes.map Prod.fst = s.nodes.map Prod.fst ∧
  (∀ mid, getNode s mid = none → getNode s' mid = none) ∧
  (∀ mid m, getNode s mid = some m → ∃ m', getNode s' mid = some m' ∧
    m'.Tokens = m.Tokens ∧ m'.Parent = m.Parent ∧ m'.CacheHandle = m.CacheHandle ∧
    m'.closedGate = m.closedGate ∧ m'.err = m.err ∧ m'.refCount = m.refCount ∧
    m'.lruElem = m.lruElem ∧ m'.Children.Sublist m.Children)

theorem Shrinks_refl (s : Tree) : Shrinks s s :=
  ⟨rfl, rfl, rfl, rfl, fun _ h => h, fun mid m h =>
    ⟨m, h, rfl, rfl, rfl, rfl, rfl, rfl, rfl, List.Sublist.refl _⟩⟩

theorem Shrinks_trans {a b c : Tree} (h1 : Shrinks a b) (h2 : Shrinks b c) :
    Shrinks a c := by
  obtain ⟨r1, l1, x1, i1, no1, so1⟩ := h1
  obtain ⟨r2, l2, x2, i2, no2, so2⟩ := h2
  refine ⟨r2.trans r1, l2.trans l1, x2.trans x1, i2.trans i1,
    fun mid h => no2 _ (no1 _ h), ?_⟩
  intro mid m h
  obtain ⟨m1, hm1, ht, hp, hc, hg, he, hr, hl, hs⟩ := so1 mid m h
  obtain ⟨m2, hm2, ht2, hp2, hc2, hg2, he2, hr2, hl2, hs2⟩ := so2 mid m1 hm1
  exact ⟨m2, hm2, ht2.trans ht, hp2.trans hp, hc2.trans hc, hg2.trans hg,
    he2.trans he, hr2.trans hr, hl2.trans hl, hs2.trans hs⟩

theorem Shrinks_foldl {β : Type} (f : (Tree × List Nat) → β → (Tree × List Nat))
    (hf : ∀ acc b, Shrinks acc.1 (f acc b).1) :
    ∀ (l : List β) (acc : Tree × List Nat), Shrinks acc.1 (List.foldl f acc l).1 := by
  intro l
  induction l with
  | nil => intro acc; exact Shrinks_refl _
  | cons b t ih =>
    intro acc
    exact Shrinks_trans (hf acc b) (ih (f acc b))

theorem Shrinks_setNode_filter {s : Tree} {nid : Nat} {n : Node}
    (hg : getNode s nid = some n) (f : Nat × Nat → Bool) :
    Shrinks s (setNode s nid { n with Children := n.Children.filter f }) := by
  refine ⟨rfl, rfl, rfl, setNode_ids s nid _, ?_, ?_⟩
  · intro mid h
    by_cases hmid : mid = nid
    · rw [hmid] at h
      rw [hg] at h
      cases h
    · rw [getNode_setNode_ne hmid]
      exact h
  · intro mid m h
    by_cases hmid : mid = nid
    · subst hmid
      rw [h] at hg
      cases hg
      exact ⟨_, getNode_setNode_self h, rfl, rfl, rfl, rfl, rfl, rfl, rfl,
        List.filter_sublist _⟩
    · exact ⟨m, by rw [getNode_setNode_ne hmid]; exact h, rfl, rfl, rfl, rfl, rfl,
        rfl, rfl, List.Sublist.refl _⟩

theorem pruneRec_shrinks : ∀ (fuel : Nat) (s : Tree) (nid : Nat),
    Shrinks s (pruneRec fuel s nid).1 := by
  intro fuel
  induction fuel with
  | zero => intro s nid; exact Shrinks_refl s
  | succ fuel ih =>
    intro s nid
    rw [pruneRec]
    cases hg : getNode s nid with
    | none => exact Shrinks_refl s
    | some n =>
      dsimp only
      have hfold := Shrinks_foldl
        (fun (acc : Tree × List Nat) kc =>
          let res := pruneRec fuel acc.1 kc.2
          (res.1, if res.2 then acc.2 ++ [kc.1] else acc.2))
        (fun acc kc => ih acc.1 kc.2) n.Children (s, [])
      cases hg1 : getNode (List.foldl
          (fun (acc : Tree × List Nat) kc =>
            let res := pruneRec fuel acc.1 kc.2
            (res.1, if res.2 then acc.2 ++ [kc.1] else acc.2))
          (s, []) n.Children).1 nid with
      | none => exact hfold
      | some n1 =>
        exact Shrinks_trans hfold (Shrinks_setNode_filter hg1 _)

theorem PrunePoisoned_shrinks (s : Tree) : Shrinks s (PrunePoisoned s) :=
  pruneRec_shrinks _ s s.rootId

/-! ## Invariant preservation -/

theorem Inv_congr {s s' : Tree} (hn : s'.nodes = s.nodes) (hr : s'.rootId = s.rootId)
    (hx : s'.nextId = s.nextId) (h : Inv s) : Inv s' := by
  have hget : ∀ nid, getNode s' nid = getNode s nid := by
    intro nid
    unfold getNode
    rw [hn]
  constructor
  · rw [hr, hget]
    exact h.root_live
  · intro pid n k cid h1 h2
    rw [hget] at h1
    obtain ⟨c, hc, hcrest⟩ := h.child_ok pid n k cid h1 h2
    exact ⟨c, (hget cid).symm ▸ hc, hcrest⟩
  · intro pid n h1
    rw [hget] at h1
    exact h.keys_nodup pid n h1
  · rw [hn]
    exact h.ids_nodup
  · intro nid h1
    rw [hget] at h1
    rw [hx]
    exact h.ids_lt nid h1
  · intro p1 n1 k1 p2 n2 k2 cid h1 h2 h3 h4
    rw [hget] at h1 h2
    exact h.parent_uniq p1 n1 k1 p2 n2 k2 cid h1 h2 h3 h4
  · intro pid n k h1
    rw [hget] at h1
    rw [hr]
    exact h.root_not_child pid n k h1

/-- Updating one live node without touching its `Tokens` or `Children`
preserves the invariant. -/
theorem Inv_setNode_same_struct {s : Tree} {nid : Nat} {n n' : Node}
    (h : Inv s) (hg : getNode s nid = some n) (ht : n'.Tokens = n.Tokens)
    (hc : n'.Children = n.Children) : Inv (setNode s nid n') := by
  have hget : ∀ mid, getNode (setNode s nid n') mid =
      if mid = nid then some n' else getNode s mid := by
    intro mid
    by_cases hm : mid = nid
    · subst hm
      simp only [if_true]
      exact getNode_setNode_self hg
    · simp only [hm, if_false]
      exact getNode_setNode_ne hm
  constructor
  · obtain ⟨r, hr, hrt⟩ := h.root_live
    rw [setNode_rootId, hget]
    by_cases hm : s.rootId = nid
    · refine ⟨n', by simp [hm], ?_⟩
      rw [ht]
      rw [hm] at hr
      rw [hg] at hr
      cases hr
      exact hrt
    · exact ⟨r, by simp [hm, hr], hrt⟩
  · intro pid m k cid h1 h2
    rw [hget] at h1
    have hmem : (k, cid) ∈ n.Children ∨ (k, cid) ∈ m.Children ∧ ¬ pid = nid := by
      by_cases hm : pid = nid
      · simp only [hm, if_true, Option.some.injEq] at h1
        rw [← h1, hc] at h2
        exact Or.inl h2
      · simp only [hm, if_false] at h1
        exact Or.inr ⟨h2, hm⟩
    have step : ∀ c0, getNode s cid = some c0 → c0.Tokens ≠ [] → c0.Tokens.headD 0 = k →
        ∃ c, getNode (setNode s nid n') cid = some c ∧ c.Tokens ≠ [] ∧ c.Tokens.headD 0 = k := by
      intro c0 hc0 hct hch
      rw [hget]
      by_cases hcm : cid = nid
      · refine ⟨n', by simp [hcm], ?_, ?_⟩
        · rw [ht]
          rw [hcm] at hc0
          rw [hg] at hc0
          cases hc0
          exact hct
        · rw [ht]
          rw [hcm] at hc0
          rw [hg] at hc0
          cases hc0
          exact hch
      · exact ⟨c0, by simp [hcm, hc0], hct, hch⟩
    rcases hmem with hmem | ⟨hmem, hpid⟩
    · obtain ⟨c0, hc0, hct, hch⟩ := h.child_ok nid n k cid hg hmem
      exact step c0 hc0 hct hch
    · simp only [hpid, if_false] at h1
      obtain ⟨c0, hc0, hct, hch⟩ := h.child_ok pid m k cid h1 hmem
      exact step c0 hc0 hct hch
  · intro pid m h1
    rw [hget] at h1
    by_cases hm : pid = nid
    · simp only [hm, if_true, Option.some.injEq] at h1
      rw [← h1, hc]
      exact h.keys_nodup nid n hg
    · simp only [hm, if_false] at h1
      exact h.keys_nodup pid m h1
  · rw [setNode_ids]
    exact h.ids_nodup
  · intro mid h1
    rw [setNode_nextId]
    refine h.ids_lt mid ?_
    rw [hget] at h1
    by_cases hm : mid = nid
    · rw [hm, hg]
      rfl
    · simp only [hm, if_false] at h1
      exact h1
  · intro p1 m1 k1 p2 m2 k2 cid h1 h2 h3 h4
    rw [hget] at h1 h2
    have e1 : ∃ q1, getNode s p1 = some q1 ∧ q1.Children = m1.Children := by
      by_cases hm : p1 = nid
      · simp only [hm, if_true, Option.some.injEq] at h1
        exact ⟨n, hm ▸ hg, by rw [← h1, hc]⟩
      · simp only [hm, if_false] at h1
        exact ⟨m1, h1, rfl⟩
    have e2 : ∃ q2, getNode s p2 = some q2 ∧ q2.Children = m2.Children := by
      by_cases hm : p2 = nid
      · simp only [hm, if_true, Option.some.injEq] at h2
        exact ⟨n, hm ▸ hg, by rw [← h2, hc]⟩
      · simp only [hm, if_false] at h2
        exact ⟨m2, h2, rfl⟩
    obtain ⟨q1, hq1, hqc1⟩ := e1
    obtain ⟨q2, hq2, hqc2⟩ := e2
    exact h.parent_uniq p1 q1 k1 p2 q2 k2 cid hq1 hq2 (hqc1 ▸ h3) (hqc2 ▸ h4)
  · intro pid m k h1
    rw [setNode_rootId]
    rw [hget] at h1
    by_cases hm : pid = nid
    · simp only [hm, if_true, Option.some.injEq] at h1
      rw [← h1, hc]
      exact h.root_not_child nid n k hg
    · simp only [hm, if_false] at h1
      exact h.root_not_child pid m k h1

theorem Inv_shrinks {s s' : Tree} (hs : Shrinks s s') (h : Inv s) : Inv s' := by
  obtain ⟨hr, hl, hx, hi, hnone, hsome⟩ := hs
  have hsome_rev : ∀ mid m', getNode s' mid = some m' →
      ∃ m, getNode s mid = some m ∧ m'.Tokens = m.Tokens ∧
        m'.closedGate = m.closedGate ∧ m'.err = m.err ∧
        m'.Children.Sublist m.Children := by
    intro mid m' h1
    cases h2 : getNode s mid with
    | none =>
      rw [hnone mid h2] at h1
      cases h1
    | some m =>
      obtain ⟨m'', hm'', ht, _, _, hcg, herr, _, _, hsub⟩ := hsome mid m h2
      have hmm : m'' = m' := by
        rw [hm''] at h1
        exact Option.some.injEq _ _ ▸ h1
      subst hmm
      exact ⟨m, rfl, ht, hcg, herr, hsub⟩
  constructor
  · obtain ⟨r, hr0, hrt⟩ := h.root_live
    obtain ⟨r', hr', ht, _, _, _, _, _, _, _⟩ := hsome _ r hr0
    exact ⟨r', hr ▸ hr', by rw [ht]; exact hrt⟩
  · intro pid m' k cid h1 h2
    obtain ⟨m, hm, _, _, _, hsub⟩ := hsome_rev pid m' h1
    have h2' : (k, cid) ∈ m.Children := hsub.mem h2
    obtain ⟨c, hc, hct, hch⟩ := h.child_ok pid m k cid hm h2'
    obtain ⟨c', hc', hct', _, _, _, _, _, _, _⟩ := hsome cid c hc
    exact ⟨c', hc', by rw [hct']; exact hct, by rw [hct']; exact hch⟩
  · intro pid m' h1
    obtain ⟨m, hm, _, _, _, hsub⟩ := hsome_rev pid m' h1
    exact (h.keys_nodup pid m hm).sublist (hsub.map Prod.fst)
  · rw [hi]
    exact h.ids_nodup
  · intro nid h1
    rw [hx]
    refine h.ids_lt nid ?_
    cases h2 : getNode s nid with
    | none =>
      rw [hnone nid h2] at h1
      cases h1
    | some m => rfl
  · intro p1 m1 k1 p2 m2 k2 cid h1 h2 h3 h4
    obtain ⟨q1, hq1, _, _, _, hsub1⟩ := hsome_rev p1 m1 h1
    obtain ⟨q2, hq2, _, _, _, hsub2⟩ := hsome_rev p2 m2 h2
    exact h.parent_uniq p1 q1 k1 p2 q2 k2 cid hq1 hq2 (hsub1.mem h3) (hsub2.mem h4)
  · intro pid m' k h1
    rw [hr]
    obtain ⟨m, hm, _, _, _, hsub⟩ := hsome_rev pid m' h1
    intro hmem
    exact h.root_not_child pid m k hm (hsub.mem hmem)

theorem fEOP_none_ne_nil {s : Tree} :
    ∀ (fuel : Nat) {tokens : List Nat} {start : Nat} {rem : List Nat},
    findExactOrPending fuel s tokens start = some (none, rem) → rem ≠ [] := by
  intro fuel
  induction fuel with
  | zero =>
    intro tokens start rem h
    rw [findExactOrPending] at h
    cases h
  | succ fuel ih =>
    intro tokens start rem h
    rw [findExactOrPending] at h
    by_cases h0 : tokens = []
    · rw [if_pos h0] at h
      simp at h
    · rw [if_neg h0] at h
      rcases hgs : getNode s start with _ | n
      · rw [hgs] at h
        dsimp only at h
        have : rem = tokens := by simpa using h.symm
        rw [this]
        exact h0
      · rw [hgs] at h
        dsimp only at h
        rcases hlk : lookupChild n (tokens.headD 0) with _ | cid
        · rw [hlk] at h
          dsimp only at h
          have : rem = tokens := by simpa using h.symm
          rw [this]
          exact h0
        · rw [hlk] at h
          dsimp only at h
          rcases hgc : getNode s cid with _ | child
          · rw [hgc] at h
            dsimp only at h
            have : rem = tokens := by simpa using h.symm
            rw [this]
            exact h0
          · rw [hgc] at h
            dsimp only at h
            by_cases hb : longestCommonPrefix tokens child.Tokens = child.Tokens.length ∧
                longestCommonPrefix tokens child.Tokens = tokens.length
            · rw [if_pos hb] at h
              by_cases hp : child.err ≠ none
              · rw [if_pos hp] at h
                have : rem = tokens := by simpa using h.symm
                rw [this]
                exact h0
              · rw [if_neg hp] at h
                simp at h
            · rw [if_neg hb] at h
              by_cases hf : longestCommonPrefix tokens child.Tokens = child.Tokens.length
              · rw [if_pos hf] at h
                exact ih h
              · rw [if_neg hf] at h
                have : rem = tokens := by simpa using h.symm
                rw [this]
                exact h0

theorem fPF_live {s : Tree} :
    ∀ (fuel : Nat) {tokens : List Nat} {start P : Nat},
    (getNode s start).isSome →
    findParentFor fuel s tokens start = some P → (getNode s P).isSome := by
  intro fuel
  induction fuel with
  | zero =>
    intro tokens start P hs h
    rw [findParentFor] at h
    cases h
  | succ fuel ih =>
    intro tokens start P hs h
    rw [findParentFor] at h
    by_cases h0 : tokens = []
    · rw [if_pos h0] at h
      have : P = start := by simpa using h.symm
      rw [this]
      exact hs
    · rw [if_neg h0] at h
      rcases hgs : getNode s start with _ | n
      · rw [hgs] at h
        dsimp only at h
        have : P = start := by simpa using h.symm
        rw [this]
        exact hs
      · rw [hgs] at h
        dsimp only at h
        rcases hlk : lookupChild n (tokens.headD 0) with _ | cid
        · rw [hlk] at h
          dsimp only at h
          have : P = start := by simpa using h.symm
          rw [this]
          exact hs
        · rw [hlk] at h
          dsimp only at h
          rcases hgc : getNode s cid with _ | child
          · rw [hgc] at h
            dsimp only at h
            have : P = start := by simpa using h.symm
            rw [this]
            exact hs
          · rw [hgc] at h
            dsimp only at h
            have hcs : (getNode s cid).isSome := by rw [hgc]; rfl
            by_cases hskip : child.err ≠ none ∧
                tokens.length ≤ longestCommonPrefix tokens child.Tokens
            · rw [if_pos hskip] at h
              exact ih hcs h
            · rw [if_neg hskip] at h
              by_cases hf : longestCommonPrefix tokens child.Tokens = child.Tokens.length
              · rw [if_pos hf] at h
                exact ih hcs h
              · rw [if_neg hf] at h
                have : P = start := by simpa using h.symm
                rw [this]
                exact hs

theorem Inv_InsertPending {s : Tree} (h : Inv s) {tokens : List Nat}
    {elog elog' : List (List Nat)} {s' : Tree} {nid : Nat}
    (hI : InsertPending s tokens elog = some (s', nid, elog')) : Inv s' := by
  unfold InsertPending at hI
  rcases hE : findExactOrPending (tokens.length + 1) s tokens s.rootId with _ | ⟨exi, remaining⟩
  · rw [hE] at hI
    cases hI
  · rw [hE] at hI
    rcases exi with _ | m
    · -- creation branch
      dsimp only at hI
      rcases hP : findParentFor (tokens.length + 1) s tokens s.rootId with _ | parent
      · rw [hP] at hI
        cases hI
      · rw [hP] at hI
        dsimp only at hI
        have hremne : remaining ≠ [] := fEOP_none_ne_nil _ hE
        have hie : remaining.isEmpty = false := by
          rcases remaining with _ | ⟨a, t⟩
          · exact absurd rfl hremne
          · rfl
        rw [if_neg (by simp [hie])] at hI
        obtain ⟨r0, hr0, hr0t⟩ := h.root_live
        have hrs : (getNode s s.rootId).isSome := by rw [hr0]; rfl
        have hPlive : (getNode s parent).isSome := fPF_live _ hrs hP
        obtain ⟨pn, hpn⟩ := Option.isSome_iff_exists.mp hPlive
        have hparent_lt : parent < s.nextId := h.ids_lt parent hPlive
        have hparent_ne : parent ≠ s.nextId := Nat.ne_of_lt hparent_lt
        have hroot_ne : s.rootId ≠ s.nextId := Nat.ne_of_lt (h.ids_lt _ hrs)
        have hnid_dead : getNode s s.nextId = none := by
          cases hd : getNode s s.nextId with
          | none => rfl
          | some x =>
            have : s.nextId < s.nextId := h.ids_lt _ (by rw [hd]; rfl)
            omega
        have hpn1 : getNode { s with
            nodes := s.nodes ++ [(s.nextId, { NewNode remaining (some parent) with refCount := 1 })],
            nextId := s.nextId + 1 } parent = some pn :=
          getNode_append_old _ _ _ hpn
        rw [hpn1] at hI
        dsimp only at hI
        simp only [Option.some.injEq, Prod.mk.injEq] at hI
        obtain ⟨hs', hnid, helog⟩ := hI
        -- names for the construction
        set nd : Node := ({ NewNode remaining (some parent) with refCount := 1 }) with hnd
        set k0 : Nat := remaining.headD 0 with hk0
        set p2 : Node := ({ pn with Children := alPut pn.Children k0 s.nextId }) with hp2
        set s1 : Tree := ({ s with
          nodes := s.nodes ++ [(s.nextId, nd)],
          nextId := s.nextId + 1 }) with hs1
        have hs'def : s' = setNode s1 parent p2 := hs'.symm
        subst hs'def
        have hget : ∀ mid, getNode (setNode s1 parent p2) mid =
            if mid = parent then some p2
            else if mid = s.nextId then some nd else getNode s mid := by
          intro mid
          by_cases hmp : mid = parent
          · subst hmp
            simp only [if_true]
            exact getNode_setNode_self hpn1
          · rw [getNode_setNode_ne hmp]
            simp only [hmp, if_false]
            by_cases hmn : mid = s.nextId
            · subst hmn
              simp only [if_true]
              exact getNode_append_new _ _ hnid_dead
            · simp only [hmn, if_false]
              exact getNode_append_other _ _ hmn
        have hmem_elim : ∀ pid m k cid, getNode (setNode s1 parent p2) pid = some m →
            (k, cid) ∈ m.Children →
            (pid = parent ∧ k = k0 ∧ cid = s.nextId) ∨
            (∃ q, getNode s pid = some q ∧ (k, cid) ∈ q.Children) := by
          intro pid m k cid h1 h2
          rw [hget] at h1
          by_cases hmp : pid = parent
          · simp only [hmp, if_true, Option.some.injEq] at h1
            rw [← h1, hp2] at h2
            rcases mem_alPut_elim _ _ _ _ _ h2 with ⟨hk, hcid⟩ | hold
            · exact Or.inl ⟨hmp, hk, hcid⟩
            · exact Or.inr ⟨pn, hmp ▸ hpn, hold⟩
          · simp only [hmp, if_false] at h1
            by_cases hmn : pid = s.nextId
            · simp only [hmn, if_true, Option.some.injEq] at h1
              rw [← h1, hnd] at h2
              simp [NewNode] at h2
            · simp only [hmn, if_false] at h1
              exact Or.inr ⟨m, h1, h2⟩
        have htrans : ∀ cid c, getNode s cid = some c →
            ∃ c2, getNode (setNode s1 parent p2) cid = some c2 ∧ c2.Tokens = c.Tokens := by
          intro cid c hc
          rw [hget]
          by_cases hcp : cid = parent
          · refine ⟨p2, by simp [hcp], ?_⟩
            rw [hp2]
            dsimp only
            rw [hcp] at hc
            rw [hpn] at hc
            cases hc
            rfl
          · by_cases hcn : cid = s.nextId
            · rw [hcn, hnid_dead] at hc
              cases hc
            · exact ⟨c, by simp [hcp, hcn, hc], rfl⟩
        constructor
        · -- root_live
          have hrr : (setNode s1 parent p2).rootId = s.rootId := rfl
          rw [hrr, hget]
          by_cases hrp : s.rootId = parent
          · refine ⟨p2, by simp [hrp], ?_⟩
            rw [hp2]
            dsimp only
            rw [hrp] at hr0
            rw [hpn] at hr0
            cases hr0
            exact hr0t
          · simp only [hrp, if_false, hroot_ne, if_false]
            exact ⟨r0, hr0, hr0t⟩
        · -- child_ok
          intro pid m k cid h1 h2
          rcases hmem_elim pid m k cid h1 h2 with ⟨hpp, hkk, hcc⟩ | ⟨q, hq, hqm⟩
          · refine ⟨nd, ?_, ?_, ?_⟩
            · rw [hget]
              have hne : ¬ s.nextId = parent := fun hx => hparent_ne hx.symm
              simp [hcc, hne]
            · rw [hnd]
              dsimp only [NewNode]
              exact hremne
            · rw [hnd, hkk, hk0]
              rfl
          · obtain ⟨c, hc, hct, hch⟩ := h.child_ok pid q k cid hq hqm
            obtain ⟨c2, hc2, hc2t⟩ := htrans cid c hc
            exact ⟨c2, hc2, by rw [hc2t]; exact hct, by rw [hc2t]; exact hch⟩
        · -- keys_nodup
          intro pid m h1
          rw [hget] at h1
          by_cases hmp : pid = parent
          · simp only [hmp, if_true, Option.some.injEq] at h1
            rw [← h1, hp2]
            exact alPut_keys_nodup _ _ _ (h.keys_nodup parent pn hpn)
          · simp only [hmp, if_false] at h1
            by_cases hmn : pid = s.nextId
            · simp only [hmn, if_true, Option.some.injEq] at h1
              rw [← h1, hnd]
              simp [NewNode]
            · simp only [hmn, if_false] at h1
              exact h.keys_nodup pid m h1
        · -- ids_nodup
          have : (setNode s1 parent p2).nodes.map Prod.fst =
              s.nodes.map Prod.fst ++ [s.nextId] := by
            rw [show (setNode s1 parent p2).nodes = alSet s1.nodes parent p2 from rfl,
              alSet_keys, hs1]
            simp
          rw [this]
          have hnotin : s.nextId ∉ s.nodes.map Prod.fst := by
            intro hmem
            have : (alGet s.nodes s.nextId).isSome := (alGet_isSome_iff _ _).mpr hmem
            rw [show alGet s.nodes s.nextId = getNode s s.nextId from rfl, hnid_dead] at this
            cases this
          rw [List.nodup_append]
          refine ⟨h.ids_nodup, List.nodup_singleton _, ?_⟩
          intro a ha hb
          have : a = s.nextId := by simpa using hb
          exact hnotin (this ▸ ha)
        · -- ids_lt
          intro mid h1
          have hnext : (setNode s1 parent p2).nextId = s.nextId + 1 := rfl
          rw [hnext]
          rw [hget] at h1
          by_cases hmp : mid = parent
          · omega
          · simp only [hmp, if_false] at h1
            by_cases hmn : mid = s.nextId
            · omega
            · simp only [hmn, if_false] at h1
              have := h.ids_lt mid h1
              omega
        · -- parent_uniq
          intro p1 n1 k1 q2 n2 k2 cid h1 h2 h3 h4
          rcases hmem_elim p1 n1 k1 cid h1 h3 with ⟨ha1, hb1, hc1⟩ | ⟨w1, hw1, hm1⟩
          · rcases hmem_elim q2 n2 k2 cid h2 h4 with ⟨ha2, hb2, hc2⟩ | ⟨w2, hw2, hm2⟩
            · exact ⟨ha1.trans ha2.symm, hb1.trans hb2.symm⟩
            · obtain ⟨c, hc, _, _⟩ := h.child_ok q2 w2 k2 cid hw2 hm2
              rw [hc1, hnid_dead] at hc
              cases hc
          · rcases hmem_elim q2 n2 k2 cid h2 h4 with ⟨ha2, hb2, hc2⟩ | ⟨w2, hw2, hm2⟩
            · obtain ⟨c, hc, _, _⟩ := h.child_ok p1 w1 k1 cid hw1 hm1
              rw [hc2, hnid_dead] at hc
              cases hc
            · exact h.parent_uniq p1 w1 k1 q2 w2 k2 cid hw1 hw2 hm1 hm2
        · -- root_not_child
          intro pid m k h1 hmem
          have hrr : (setNode s1 parent p2).rootId = s.rootId := rfl
          rw [hrr] at hmem
          rcases hmem_elim pid m k s.rootId h1 hmem with ⟨_, _, hcc⟩ | ⟨q, hq, hqm⟩
          · exact hroot_ne hcc
          · exact h.root_not_child pid q k hq hqm
    · -- reuse branch
      dsimp only at hI
      rcases hg : getNode s m with _ | n
      · rw [hg] at hI
        cases hI
      · rw [hg] at hI
        dsimp only at hI
        simp only [Option.some.injEq, Prod.mk.injEq] at hI
        obtain ⟨hs', hnid, helog⟩ := hI
        rw [← hs']
        exact Inv_setNode_same_struct h hg rfl rfl

/-- The reuse branch of `InsertPending`: an exact (or pending) match just
gets its pin count bumped. -/
theorem InsertPending_reuse_spec {s : Tree} {tokens : List Nat}
    {elog : List (List Nat)} {m : Nat} {rem : List Nat}
    (hE : findExactOrPending (tokens.length + 1) s tokens s.rootId = some (some m, rem))
    {n : Node} (hg : getNode s m = some n) :
    InsertPending s tokens elog =
      some (setNode s m { n with refCount := n.refCount + 1 }, m, elog) := by
  unfold InsertPending
  rw [hE]
  dsimp only
  rw [hg]

/-- The creation branch of `InsertPending`: a fresh pending node is
appended to the heap and attached below `findParentFor`'s answer. -/
theorem InsertPending_create_spec {s : Tree} {tokens : List Nat}
    {elog : List (List Nat)} {remaining : List Nat} {parent : Nat}
    (hE : findExactOrPending (tokens.length + 1) s tokens s.rootId = some (none, remaining))
    (hP : findParentFor (tokens.length + 1) s tokens s.rootId = some parent)
    {pn : Node} (hpn : getNode s parent = some pn) (hparent_ne : parent ≠ s.nextId) :
    InsertPending s tokens elog =
      some (setNode { s with
          nodes := s.nodes ++ [(s.nextId, { NewNode remaining (some parent) with refCount := 1 })],
          nextId := s.nextId + 1 } parent
          { pn with Children := alPut pn.Children (remaining.headD 0) s.nextId },
        s.nextId, elog) := by
  have hremne : remaining ≠ [] := fEOP_none_ne_nil _ hE
  have hie : remaining.isEmpty = false := by
    rcases remaining with _ | ⟨a, t⟩
    · exact absurd rfl hremne
    · rfl
  have hpn1 : getNode { s with
      nodes := s.nodes ++ [(s.nextId, { NewNode remaining (some parent) with refCount := 1 })],
      nextId := s.nextId + 1 } parent = some pn :=
    getNode_append_old _ _ _ hpn
  unfold InsertPending
  rw [hE]
  dsimp only
  rw [hP]
  dsimp only
  rw [if_neg (by simp [hie])]
  rw [hpn1]

/-- Node lookup in the tree produced by the creation branch. -/
theorem insert_create_getNode {s : Tree} {remaining : List Nat} {parent : Nat}
    {pn : Node} (hpn : getNode s parent = some pn)
    (hparent_ne : parent ≠ s.nextId) (hnid_dead : getNode s s.nextId = none) :
    ∀ mid, getNode (setNode { s with
        nodes := s.nodes ++ [(s.nextId, { NewNode remaining (some parent) with refCount := 1 })],
        nextId := s.nextId + 1 } parent
        { pn with Children := alPut pn.Children (remaining.headD 0) s.nextId }) mid =
      if mid = parent then
        some { pn with Children := alPut pn.Children (remaining.headD 0) s.nextId }
      else if mid = s.nextId then
        some { NewNode remaining (some parent) with refCount := 1 }
      else getNode s mid := by
  intro mid
  have hpn1 : getNode { s with
      nodes := s.nodes ++ [(s.nextId, { NewNode remaining (some parent) with refCount := 1 })],
      nextId := s.nextId + 1 } parent = some pn :=
    getNode_append_old _ _ _ hpn
  by_cases hmp : mid = parent
  · subst hmp
    simp only [if_true]
    exact getNode_setNode_self hpn1
  · rw [getNode_setNode_ne hmp]
    simp only [hmp, if_false]
    by_cases hmn : mid = s.nextId
    · subst hmn
      simp only [if_true]
      exact getNode_append_new _ _ hnid_dead
    · simp only [hmn, if_false]
      exact getNode_append_other _ _ hmn

/-- `InsertPending` applied where `findExactOrPending` finds nothing and
`findParentFor` fails is the divergent case. -/
theorem InsertPending_none_of_fEOP_none {s : Tree} {tokens : List Nat}
    {elog : List (List Nat)}
    (hE : findExactOrPending (tokens.length + 1) s tokens s.rootId = none) :
    InsertPending s tokens elog = none := by
  unfold InsertPending
  rw [hE]

theorem InsertPending_none_of_dead {s : Tree} {tokens : List Nat}
    {elog : List (List Nat)} {m : Nat} {rem : List Nat}
    (hE : findExactOrPending (tokens.length + 1) s tokens s.rootId = some (some m, rem))
    (hg : getNode s m = none) : InsertPending s tokens elog = none := by
  unfold InsertPending
  rw [hE]
  dsimp only
  rw [hg]

theorem InsertPending_none_of_fPF_none {s : Tree} {tokens : List Nat}
    {elog : List (List Nat)} {rem : List Nat}
    (hE : findExactOrPending (tokens.length + 1) s tokens s.rootId = some (none, rem))
    (hP : findParentFor (tokens.length + 1) s tokens s.rootId = none) :
    InsertPending s tokens elog = none := by
  unfold InsertPending
  rw [hE]
  dsimp only
  rw [hP]

/-- `InsertPending` leaves the LRU list alone, keeps every existing
node's non-structural fields, and creates at most one node, which is
pending, unpoisoned and not in the LRU. -/
theorem InsertPending_stable {s : Tree} (h : Inv s) {tokens : List Nat}
    {elog elog' : List (List Nat)} {s' : Tree} {nid : Nat}
    (hI : InsertPending s tokens elog = some (s', nid, elog')) :
    s'.lruList = s.lruList ∧
    (∀ mid m', getNode s' mid = some m' →
      (∃ m, getNode s mid = some m ∧ m'.Tokens = m.Tokens ∧
        m'.closedGate = m.closedGate ∧ m'.err = m.err ∧ m'.lruElem = m.lruElem ∧
        m'.CacheHandle = m.CacheHandle) ∨
      (mid = s.nextId ∧ m'.closedGate = false ∧ m'.err = none ∧ m'.lruElem = false)) ∧
    (∀ mid m, getNode s mid = some m → ∃ m', getNode s' mid = some m' ∧
      m'.Tokens = m.Tokens ∧ m'.closedGate = m.closedGate ∧ m'.err = m.err ∧
      m'.lruElem = m.lruElem ∧ m'.CacheHandle = m.CacheHandle) := by
  rcases hE : findExactOrPending (tokens.length + 1) s tokens s.rootId with _ | ⟨exi, remaining⟩
  · rw [InsertPending_none_of_fEOP_none hE] at hI
    cases hI
  · rcases exi with _ | m0
    · -- creation branch
      rcases hP : findParentFor (tokens.length + 1) s tokens s.rootId with _ | parent
      · rw [InsertPending_none_of_fPF_none hE hP] at hI
        cases hI
      · obtain ⟨r0, hr0, hr0t⟩ := h.root_live
        have hrs : (getNode s s.rootId).isSome := by rw [hr0]; rfl
        have hPlive : (getNode s parent).isSome :=
          fPF_live _ hrs hP
        obtain ⟨pn, hpn⟩ := Option.isSome_iff_exists.mp hPlive
        have hparent_ne : parent ≠ s.nextId := Nat.ne_of_lt (h.ids_lt parent hPlive)
        have hnid_dead : getNode s s.nextId = none := by
          cases hd : getNode s s.nextId with
          | none => rfl
          | some x =>
            have : s.nextId < s.nextId := h.ids_lt _ (by rw [hd]; rfl)
            omega
        rw [@InsertPending_create_spec s tokens elog remaining parent hE hP pn hpn hparent_ne] at hI
        simp only [Option.some.injEq, Prod.mk.injEq] at hI
        obtain ⟨hs', hnid, helog⟩ := hI
        have hget0 := @insert_create_getNode s remaining parent pn hpn hparent_ne hnid_dead
        have hget : ∀ mid, getNode s' mid =
            if mid = parent then
              some { pn with Children := alPut pn.Children (remaining.headD 0) s.nextId }
            else if mid = s.nextId then
              some { NewNode remaining (some parent) with refCount := 1 }
            else getNode s mid := by
          intro mid
          rw [← hs']
          exact hget0 mid
        refine ⟨by rw [← hs']; rfl, ?_, ?_⟩
        · intro mid m' h1
          rw [hget mid] at h1
          by_cases hmp : mid = parent
          · simp only [hmp, if_true, Option.some.injEq] at h1
            exact Or.inl ⟨pn, hmp ▸ hpn, by rw [← h1], by rw [← h1], by rw [← h1],
              by rw [← h1], by rw [← h1]⟩
          · simp only [hmp, if_false] at h1
            by_cases hmn : mid = s.nextId
            · simp only [hmn, if_true, Option.some.injEq] at h1
              exact Or.inr ⟨hmn, by rw [← h1]; rfl, by rw [← h1]; rfl, by rw [← h1]; rfl⟩
            · simp only [hmn, if_false] at h1
              exact Or.inl ⟨m', h1, rfl, rfl, rfl, rfl, rfl⟩
        · intro mid m h1
          rw [hget mid]
          by_cases hmp : mid = parent
          · subst hmp
            rw [hpn] at h1
            cases h1
            exact ⟨{ pn with Children := alPut pn.Children (remaining.headD 0) s.nextId },
              by simp, rfl, rfl, rfl, rfl, rfl⟩
          · by_cases hmn : mid = s.nextId
            · rw [hmn, hnid_dead] at h1
              cases h1
            · exact ⟨m, by simp [hmp, hmn, h1], rfl, rfl, rfl, rfl, rfl⟩
    · -- reuse branch
      rcases hg : getNode s m0 with _ | n
      · rw [InsertPending_none_of_dead hE hg] at hI
        cases hI
      · rw [InsertPending_reuse_spec hE hg] at hI
        simp only [Option.some.injEq, Prod.mk.injEq] at hI
        obtain ⟨hs', hnid, helog⟩ := hI
        have hget : ∀ mid, getNode s' mid =
            if mid = m0 then some { n with refCount := n.refCount + 1 }
            else getNode s mid := by
          intro mid
          rw [← hs']
          by_cases hm : mid = m0
          · subst hm
            simp only [if_true]
            exact getNode_setNode_self hg
          · simp only [hm, if_false]
            exact getNode_setNode_ne hm
        refine ⟨by rw [← hs']; rfl, ?_, ?_⟩
        · intro mid m' h1
          rw [hget mid] at h1
          by_cases hm : mid = m0
          · simp only [hm, if_true, Option.some.injEq] at h1
            exact Or.inl ⟨n, hm ▸ hg, by rw [← h1], by rw [← h1], by rw [← h1],
              by rw [← h1], by rw [← h1]⟩
          · simp only [hm, if_false] at h1
            exact Or.inl ⟨m', h1, rfl, rfl, rfl, rfl, rfl⟩
        · intro mid m h1
          rw [hget mid]
          by_cases hm : mid = m0
          · subst hm
            rw [hg] at h1
            cases h1
            exact ⟨{ n with refCount := n.refCount + 1 }, by simp, rfl, rfl, rfl, rfl, rfl⟩
          · exact ⟨m, by simp [hm, h1], rfl, rfl, rfl, rfl, rfl⟩

/-- A successful `FinalizeNode` proves the gate was open and yields the
finalized node. -/
theorem FinalizeNode_ok {n : Node} {hd : Nat} {n1 : Node}
    (h : FinalizeNode n hd = Except.ok n1) :
    n.closedGate = false ∧ n1 = { n with CacheHandle := hd, closedGate := true } := by
  unfold FinalizeNode closeGate at h
  split at h
  · cases h
  · next hc =>
    refine ⟨by simpa using hc, ?_⟩
    have := Except.ok.injEq .. ▸ h
    exact this.symm

/-- A successful `PoisonNode` proves the gate was open and yields the
poisoned node. -/
theorem PoisonNode_ok {n : Node} {e : Err} {n1 : Node}
    (h : PoisonNode n e = Except.ok n1) :
    n.closedGate = false ∧ n1 = { n with err := some e, closedGate := true } := by
  unfold PoisonNode closeGate at h
  split at h
  · cases h
  · next hc =>
    refine ⟨by simpa using hc, ?_⟩
    have := Except.ok.injEq .. ▸ h
    exact this.symm

theorem Inv_Unpin {s : Tree} (h : Inv s) (nid : Nat) : Inv (Unpin s nid) := by
  unfold Unpin
  cases hg : getNode s nid with
  | none => exact h
  | some n =>
    dsimp only
    split
    · exact h
    · split
      · exact @Inv_congr
          (setNode s nid { n with refCount := n.refCount - 1, lruElem := true }) _
          rfl rfl rfl
          (@Inv_setNode_same_struct s nid n
            { n with refCount := n.refCount - 1, lruElem := true } h hg rfl rfl)
      · exact Inv_setNode_same_struct h hg rfl rfl

/-- Every operation that completes preserves the structural invariant. -/
theorem Inv_step {s s' : Tree} (h : Inv s) {op : Op}
    (hs : stepOp s op = some s') : Inv s' := by
  cases op with
  | insertPending ts =>
    simp only [stepOp] at hs
    rcases hr : InsertPending s ts [] with _ | ⟨t, n0, l0⟩
    · rw [hr] at hs
      cases hs
    · rw [hr] at hs
      have hst : s' = t := by simpa using hs.symm
      rw [hst]
      exact Inv_InsertPending h hr
  | finalize nid hd =>
    simp only [stepOp] at hs
    rcases hg : getNode s nid with _ | n
    · rw [hg] at hs
      cases hs
    · rw [hg] at hs
      dsimp only at hs
      rcases hf : FinalizeNode n hd with e | n1
      · rw [hf] at hs
        cases hs
      · rw [hf] at hs
        dsimp only at hs
        have hst : s' = setNode s nid n1 := by simpa using hs.symm
        rw [hst]
        obtain ⟨_, hn1⟩ := FinalizeNode_ok hf
        exact Inv_setNode_same_struct h hg (by rw [hn1]) (by rw [hn1])
  | poison nid e =>
    simp only [stepOp] at hs
    rcases hg : getNode s nid with _ | n
    · rw [hg] at hs
      cases hs
    · rw [hg] at hs
      dsimp only at hs
      rcases hf : PoisonNode n e with e1 | n1
      · rw [hf] at hs
        cases hs
      · rw [hf] at hs
        dsimp only at hs
        have hst : s' = setNode s nid n1 := by simpa using hs.symm
        rw [hst]
        obtain ⟨_, hn1⟩ := PoisonNode_ok hf
        exact Inv_setNode_same_struct h hg (by rw [hn1]) (by rw [hn1])
  | unpin nid =>
    simp only [stepOp] at hs
    split at hs
    · have hst : s' = Unpin s nid := by simpa using hs.symm
      rw [hst]
      exact Inv_Unpin h nid
    · cases hs
  | prunePoisoned =>
    simp only [stepOp] at hs
    have hst : s' = PrunePoisoned s := by simpa using hs.symm
    rw [hst]
    exact Inv_shrinks (PrunePoisoned_shrinks s) h

/-- Every reachable tree satisfies the structural invariant. -/
theorem Reach_Inv {P : Op → Prop} {s : Tree} (h : ReachW P s) : Inv s := by
  induction h with
  | init => exact Inv_NewTree
  | step hr hp hstep ih => exact Inv_step ih hstep

/-! ## `Unpin` behaviour -/

theorem Unpin_eq_dead {s : Tree} {nid : Nat} (hg : getNode s nid = none) :
    Unpin s nid = s := by
  unfold Unpin
  rw [hg]

theorem Unpin_eq_neg {s : Tree} {nid : Nat} {n : Node} (hg : getNode s nid = some n)
    (hneg : n.refCount - 1 < 0) : Unpin s nid = s := by
  unfold Unpin
  rw [hg]
  dsimp only
  rw [if_pos hneg]

theorem Unpin_eq_push {s : Tree} {nid : Nat} {n : Node} (hg : getNode s nid = some n)
    (hneg : ¬ n.refCount - 1 < 0)
    (hcond : n.refCount - 1 = 0 ∧ n.Children.isEmpty ∧ IsReady n ∧ n.lruElem = false) :
    Unpin s nid = { setNode s nid { n with refCount := n.refCount - 1, lruElem := true } with lruList := nid :: s.lruList } := by
  unfold Unpin
  rw [hg]
  dsimp only
  rw [if_neg hneg, if_pos hcond]
  rfl

theorem Unpin_eq_dec {s : Tree} {nid : Nat} {n : Node} (hg : getNode s nid = some n)
    (hneg : ¬ n.refCount - 1 < 0)
    (hcond : ¬ (n.refCount - 1 = 0 ∧ n.Children.isEmpty ∧ IsReady n ∧ n.lruElem = false)) :
    Unpin s nid = setNode s nid { n with refCount := n.refCount - 1 } := by
  unfold Unpin
  rw [hg]
  dsimp only
  rw [if_neg hneg, if_neg hcond]

theorem getNode_withLru (s : Tree) (l : List Nat) (mid : Nat) :
    getNode { s with lruList := l } mid = getNode s mid := rfl

/-- `Unpin` never changes a node's identity-relevant fields, only
`refCount` and `lruElem`. -/
theorem Unpin_getNode_stable (s : Tree) (nid : Nat) :
    (∀ mid m', getNode (Unpin s nid) mid = some m' → ∃ m, getNode s mid = some m ∧
      m'.Tokens = m.Tokens ∧ m'.Children = m.Children ∧ m'.closedGate = m.closedGate ∧
      m'.err = m.err ∧ m'.CacheHandle = m.CacheHandle) ∧
    (∀ mid m, getNode s mid = some m → ∃ m', getNode (Unpin s nid) mid = some m' ∧
      m'.Tokens = m.Tokens ∧ m'.Children = m.Children ∧ m'.closedGate = m.closedGate ∧
      m'.err = m.err ∧ m'.CacheHandle = m.CacheHandle) := by
  rcases hg : getNode s nid with _ | n
  · rw [Unpin_eq_dead hg]
    exact ⟨fun mid m' h1 => ⟨m', h1, rfl, rfl, rfl, rfl, rfl⟩,
      fun mid m h1 => ⟨m, h1, rfl, rfl, rfl, rfl, rfl⟩⟩
  · by_cases hneg : n.refCount - 1 < 0
    · rw [Unpin_eq_neg hg hneg]
      exact ⟨fun mid m' h1 => ⟨m', h1, rfl, rfl, rfl, rfl, rfl⟩,
        fun mid m h1 => ⟨m, h1, rfl, rfl, rfl, rfl, rfl⟩⟩
    · have core : ∀ nx : Node, nx.Tokens = n.Tokens → nx.Children = n.Children →
          nx.closedGate = n.closedGate → nx.err = n.err → nx.CacheHandle = n.CacheHandle →
          (∀ mid m', getNode (setNode s nid nx) mid = some m' →
            ∃ m, getNode s mid = some m ∧ m'.Tokens = m.Tokens ∧ m'.Children = m.Children ∧
              m'.closedGate = m.closedGate ∧ m'.err = m.err ∧ m'.CacheHandle = m.CacheHandle) ∧
          (∀ mid m, getNode s mid = some m →
            ∃ m', getNode (setNode s nid nx) mid = some m' ∧ m'.Tokens = m.Tokens ∧
              m'.Children = m.Children ∧ m'.closedGate = m.closedGate ∧ m'.err = m.err ∧
              m'.CacheHandle = m.CacheHandle) := by
        intro nx ht hc hcg he hch
        constructor
        · intro mid m' h1
          by_cases hm : mid = nid
          · subst hm
            rw [getNode_setNode_self hg] at h1
            cases h1
            exact ⟨n, hg, ht, hc, hcg, he, hch⟩
          · rw [getNode_setNode_ne hm] at h1
            exact ⟨m', h1, rfl, rfl, rfl, rfl, rfl⟩
        · intro mid m h1
          by_cases hm : mid = nid
          · subst hm
            rw [hg] at h1
            cases h1
            exact ⟨nx, getNode_setNode_self hg, ht, hc, hcg, he, hch⟩
          · exact ⟨m, by rw [getNode_setNode_ne hm]; exact h1, rfl, rfl, rfl, rfl, rfl⟩
      by_cases hcond : n.refCount - 1 = 0 ∧ n.Children.isEmpty ∧ IsReady n ∧ n.lruElem = false
      · rw [Unpin_eq_push hg hneg hcond]
        have h0 := core { n with refCount := n.refCount - 1, lruElem := true } rfl rfl rfl rfl rfl
        exact ⟨fun mid m' h1 => h0.1 mid m' (by rw [← getNode_withLru _ (nid :: s.lruList) mid]; exact h1),
          fun mid m h1 => by
            obtain ⟨m', hm', rest⟩ := h0.2 mid m h1
            exact ⟨m', by rw [getNode_withLru]; exact hm', rest⟩⟩
      · rw [Unpin_eq_dec hg hneg hcond]
        exact core { n with refCount := n.refCount - 1 } rfl rfl rfl rfl rfl

/-- `Unpin` either leaves the LRU list unchanged or pushes exactly the
unpinned node to its front, and the pushed node is always gate-closed. -/
theorem Unpin_lru (s : Tree) (nid : Nat) :
    (Unpin s nid).lruList = s.lruList ∨
    ((Unpin s nid).lruList = nid :: s.lruList ∧
      ∃ n, getNode s nid = some n ∧ n.closedGate = true ∧ n.refCount = 1 ∧
        n.Children = [] ∧ n.lruElem = false) := by
  rcases hg : getNode s nid with _ | n
  · rw [Unpin_eq_dead hg]
    exact Or.inl rfl
  · by_cases hneg : n.refCount - 1 < 0
    · rw [Unpin_eq_neg hg hneg]
      exact Or.inl rfl
    · by_cases hcond : n.refCount - 1 = 0 ∧ n.Children.isEmpty ∧ IsReady n ∧ n.lruElem = false
      · rw [Unpin_eq_push hg hneg hcond]
        obtain ⟨h1, h2, h3, h4⟩ := hcond
        refine Or.inr ⟨rfl, n, rfl, h3, by omega, by simpa using h2, h4⟩
      · rw [Unpin_eq_dec hg hneg hcond]
        exact Or.inl rfl

/-- When `Unpin` drops the pin count of a childless, gate-closed node
that is not yet listed to zero, the node is pushed to the LRU front. -/
theorem Unpin_push {s : Tree} {nid : Nat} {n : Node} (hg : getNode s nid = some n)
    (h1 : n.refCount = 1) (h2 : n.Children = []) (h3 : n.closedGate = true)
    (h4 : n.lruElem = false) :
    (Unpin s nid).lruList = nid :: s.lruList ∧
    getNode (Unpin s nid) nid = some { n with refCount := 0, lruElem := true } := by
  have hcond : n.refCount - 1 = 0 ∧ n.Children.isEmpty ∧ IsReady n ∧ n.lruElem = false :=
    ⟨by omega, by simp [h2], by simpa [IsReady] using h3, h4⟩
  rw [Unpin_eq_push hg (by omega) hcond]
  refine ⟨rfl, ?_⟩
  rw [getNode_withLru, getNode_setNode_self hg]
  simp [h1]

/-! ## Gate-closure of LRU members -/

/-- Every node identifier in the LRU list refers to a live node whose
readiness gate is closed (it was finalized or poisoned). -/
def LruClosed (s : Tree) : Prop :=
  ∀ nid ∈ s.lruList, ∃ n, getNode s nid = some n ∧ n.closedGate = true

theorem Reach_LruClosed {P : Op → Prop} {s : Tree} (h : ReachW P s) : LruClosed s := by
  induction h with
  | init => intro nid hmem; simp [NewTree] at hmem
  | @step s0 s' op hr hp hstep ih =>
    have hInv : Inv s0 := Reach_Inv hr
    cases op with
    | insertPending ts =>
      simp only [stepOp] at hstep
      rcases hi : InsertPending s0 ts [] with _ | ⟨t, n0, l0⟩
      · rw [hi] at hstep
        cases hstep
      · rw [hi] at hstep
        have hst : s' = t := by simpa using hstep.symm
        obtain ⟨hlru, _, hfwd⟩ := InsertPending_stable hInv hi
        rw [hst]
        intro nid hmem
        rw [hlru] at hmem
        obtain ⟨n, hn, hc⟩ := ih nid hmem
        obtain ⟨n', hn', _, hcg, _, _, _⟩ := hfwd nid n hn
        exact ⟨n', hn', by rw [hcg]; exact hc⟩
    | finalize nid0 hd =>
      simp only [stepOp] at hstep
      rcases hg : getNode s0 nid0 with _ | n
      · rw [hg] at hstep
        cases hstep
      · rw [hg] at hstep
        dsimp only at hstep
        rcases hf : FinalizeNode n hd with e | n1
        · rw [hf] at hstep
          cases hstep
        · rw [hf] at hstep
          dsimp only at hstep
          have hst : s' = setNode s0 nid0 n1 := by simpa using hstep.symm
          obtain ⟨_, hn1⟩ := FinalizeNode_ok hf
          rw [hst]
          intro nid hmem
          rw [setNode_lruList] at hmem
          obtain ⟨m, hm, hc⟩ := ih nid hmem
          by_cases hmid : nid = nid0
          · subst hmid
            exact ⟨n1, getNode_setNode_self hg, by rw [hn1]⟩
          · exact ⟨m, by rw [getNode_setNode_ne hmid]; exact hm, hc⟩
    | poison nid0 e =>
      simp only [stepOp] at hstep
      rcases hg : getNode s0 nid0 with _ | n
      · rw [hg] at hstep
        cases hstep
      · rw [hg] at hstep
        dsimp only at hstep
        rcases hf : PoisonNode n e with e1 | n1
        · rw [hf] at hstep
          cases hstep
        · rw [hf] at hstep
          dsimp only at hstep
          have hst : s' = setNode s0 nid0 n1 := by simpa using hstep.symm
          obtain ⟨_, hn1⟩ := PoisonNode_ok hf
          rw [hst]
          intro nid hmem
          rw [setNode_lruList] at hmem
          obtain ⟨m, hm, hc⟩ := ih nid hmem
          by_cases hmid : nid = nid0
          · subst hmid
            exact ⟨n1, getNode_setNode_self hg, by rw [hn1]⟩
          · exact ⟨m, by rw [getNode_setNode_ne hmid]; exact hm, hc⟩
    | unpin nid0 =>
      simp only [stepOp] at hstep
      split at hstep
      · have hst : s' = Unpin s0 nid0 := by simpa using hstep.symm
        rw [hst]
        intro nid hmem
        obtain ⟨hback, hfwd⟩ := Unpin_getNode_stable s0 nid0
        rcases Unpin_lru s0 nid0 with hsame | ⟨hpush, n, hn, hc, _, _, _⟩
        · rw [hsame] at hmem
          obtain ⟨m, hm, hcm⟩ := ih nid hmem
          obtain ⟨m', hm', _, _, hcg, _, _⟩ := hfwd nid m hm
          exact ⟨m', hm', by rw [hcg]; exact hcm⟩
        · rw [hpush] at hmem
          rcases List.mem_cons.mp hmem with hmid | hmem2
          · subst hmid
            obtain ⟨m', hm', _, _, hcg, _, _⟩ := hfwd nid n hn
            exact ⟨m', hm', by rw [hcg]; exact hc⟩
          · obtain ⟨m, hm, hcm⟩ := ih nid hmem2
            obtain ⟨m', hm', _, _, hcg, _, _⟩ := hfwd nid m hm
            exact ⟨m', hm', by rw [hcg]; exact hcm⟩
      · cases hstep
    | prunePoisoned =>
      simp only [stepOp] at hstep
      have hst : s' = PrunePoisoned s0 := by simpa using hstep.symm
      rw [hst]
      obtain ⟨_, hlru, _, _, _, hsome⟩ := PrunePoisoned_shrinks s0
      intro nid hmem
      rw [hlru] at hmem
      obtain ⟨m, hm, hcm⟩ := ih nid hmem
      obtain ⟨m', hm', _, _, _, hcg, _, _, _, _⟩ := hsome nid m hm
      exact ⟨m', hm', by rw [hcg]; exact hcm⟩

/-! ## Poison-free histories -/

/-- No live node carries an error. -/
def noPoison (s : Tree) : Prop := ∀ nid n, getNode s nid = some n → n.err = none

theorem NPReach_noPoison {s : Tree} (h : NPReach s) : noPoison s := by
  induction h with
  | init =>
    intro nid n hg
    rcases hn : nid with _ | nid'
    · subst hn
      have : getNode NewTree 0 = some (NewNode [] none) := rfl
      rw [this] at hg
      cases hg
      rfl
    · subst hn
      have : getNode NewTree (nid' + 1) = none := by
        unfold NewTree getNode
        rw [alGet_cons]
        simp [alGet]
      rw [this] at hg
      cases hg
  | @step s0 s' op hr hp hstep ih =>
    have hInv : Inv s0 := Reach_Inv hr
    cases op with
    | insertPending ts =>
      simp only [stepOp] at hstep
      rcases hi : InsertPending s0 ts [] with _ | ⟨t, n0, l0⟩
      · rw [hi] at hstep
        cases hstep
      · rw [hi] at hstep
        have hst : s' = t := by simpa using hstep.symm
        obtain ⟨_, hback, _⟩ := InsertPending_stable hInv hi
        rw [hst]
        intro nid n hg
        rcases hback nid n hg with ⟨m, hm, _, _, herr, _, _⟩ | ⟨_, _, herr, _⟩
        · rw [herr]
          exact ih nid m hm
        · exact herr
    | finalize nid0 hd =>
      simp only [stepOp] at hstep
      rcases hg0 : getNode s0 nid0 with _ | n
      · rw [hg0] at hstep
        cases hstep
      · rw [hg0] at hstep
        dsimp only at hstep
        rcases hf : FinalizeNode n hd with e | n1
        · rw [hf] at hstep
          cases hstep
        · rw [hf] at hstep
          dsimp only at hstep
          have hst : s' = setNode s0 nid0 n1 := by simpa using hstep.symm
          obtain ⟨_, hn1⟩ := FinalizeNode_ok hf
          rw [hst]
          intro nid m hg
          by_cases hmid : nid = nid0
          · subst hmid
            rw [getNode_setNode_self hg0] at hg
            cases hg
            rw [hn1]
            exact ih _ n hg0
          · rw [getNode_setNode_ne hmid] at hg
            exact ih nid m hg
    | poison nid0 e => exact absurd hp (by simp [isNotPoison])
    | unpin nid0 =>
      simp only [stepOp] at hstep
      split at hstep
      · have hst : s' = Unpin s0 nid0 := by simpa using hstep.symm
        rw [hst]
        intro nid m hg
        obtain ⟨hback, _⟩ := Unpin_getNode_stable s0 nid0
        obtain ⟨m0, hm0, _, _, _, herr, _⟩ := hback nid m hg
        rw [herr]
        exact ih nid m0 hm0
      · cases hstep
    | prunePoisoned =>
      simp only [stepOp] at hstep
      have hst : s' = PrunePoisoned s0 := by simpa using hstep.symm
      rw [hst]
      obtain ⟨_, _, _, _, hnone, hsome⟩ := PrunePoisoned_shrinks s0
      intro nid m hg
      cases hg0 : getNode s0 nid with
      | none =>
        rw [hnone nid hg0] at hg
        cases hg
      | some m0 =>
        obtain ⟨m', hm', _, _, _, _, herr, _, _, _⟩ := hsome nid m0 hg0
        rw [hg] at hm'
        cases hm'
        rw [herr]
        exact ih nid m0 hg0

/-! ## Equations of the `match` loop -/

theorem matchLoop_zero (s : Tree) (cur : Nat) (tokens : List Nat) (best : Option Nat) :
    matchLoop 0 s cur tokens best = best := by
  rw [matchLoop]

theorem matchLoop_any_nil (fuel : Nat) (s : Tree) (cur : Nat) (best : Option Nat) :
    matchLoop fuel s cur [] best = best := by
  cases fuel with
  | zero => rw [matchLoop]
  | succ fuel => rw [matchLoop, if_pos rfl]

theorem matchLoop_eq_deadcur {s : Tree} {cur : Nat} {tokens : List Nat}
    {best : Option Nat} (fuel : Nat) (h0 : tokens ≠ []) (hg : getNode s cur = none) :
    matchLoop (fuel + 1) s cur tokens best = best := by
  rw [matchLoop, if_neg h0, hg]

theorem matchLoop_eq_nochild {s : Tree} {cur : Nat} {tokens : List Nat}
    {best : Option Nat} {n : Node} (fuel : Nat) (h0 : tokens ≠ [])
    (hg : getNode s cur = some n) (hlk : lookupChild n (tokens.headD 0) = none) :
    matchLoop (fuel + 1) s cur tokens best = best := by
  rw [matchLoop, if_neg h0, hg]
  dsimp only
  rw [hlk]

theorem matchLoop_eq_deadchild {s : Tree} {cur : Nat} {tokens : List Nat}
    {best : Option Nat} {n : Node} {cid : Nat} (fuel : Nat) (h0 : tokens ≠ [])
    (hg : getNode s cur = some n) (hlk : lookupChild n (tokens.headD 0) = some cid)
    (hgc : getNode s cid = none) : matchLoop (fuel + 1) s cur tokens best = best := by
  rw [matchLoop, if_neg h0, hg]
  dsimp only
  rw [hlk]
  dsimp only
  rw [hgc]

theorem matchLoop_eq_zero {s : Tree} {cur : Nat} {tokens : List Nat}
    {best : Option Nat} {n child : Node} {cid : Nat} (fuel : Nat) (h0 : tokens ≠ [])
    (hg : getNode s cur = some n) (hlk : lookupChild n (tokens.headD 0) = some cid)
    (hgc : getNode s cid = some child)
    (hz : longestCommonPrefix tokens child.Tokens = 0) :
    matchLoop (fuel + 1) s cur tokens best = best := by
  rw [matchLoop, if_neg h0, hg]
  dsimp only
  rw [hlk]
  dsimp only
  rw [hgc]
  dsimp only
  rw [if_pos hz]

theorem matchLoop_eq_descend {s : Tree} {cur : Nat} {tokens : List Nat}
    {best : Option Nat} {n child : Node} {cid : Nat} (fuel : Nat) (h0 : tokens ≠ [])
    (hg : getNode s cur = some n) (hlk : lookupChild n (tokens.headD 0) = some cid)
    (hgc : getNode s cid = some child)
    (hz : ¬ longestCommonPrefix tokens child.Tokens = 0)
    (hf : longestCommonPrefix tokens child.Tokens = child.Tokens.length) :
    matchLoop (fuel + 1) s cur tokens best =
      matchLoop fuel s cid (tokens.drop (longestCommonPrefix tokens child.Tokens))
        (if IsReady child then some cid else best) := by
  rw [matchLoop, if_neg h0, hg]
  dsimp only
  rw [hlk]
  dsimp only
  rw [hgc]
  dsimp only
  rw [if_neg hz, if_pos hf]

theorem matchLoop_eq_midedge {s : Tree} {cur : Nat} {tokens : List Nat}
    {best : Option Nat} {n child : Node} {cid : Nat} (fuel : Nat) (h0 : tokens ≠ [])
    (hg : getNode s cur = some n) (hlk : lookupChild n (tokens.headD 0) = some cid)
    (hgc : getNode s cid = some child)
    (hz : ¬ longestCommonPrefix tokens child.Tokens = 0)
    (hnf : ¬ longestCommonPrefix tokens child.Tokens = child.Tokens.length)
    (hmid : longestCommonPrefix tokens child.Tokens = tokens.length ∧ IsReady child = true) :
    matchLoop (fuel + 1) s cur tokens best = some cid := by
  rw [matchLoop, if_neg h0, hg]
  dsimp only
  rw [hlk]
  dsimp only
  rw [hgc]
  dsimp only
  rw [if_neg hz, if_neg hnf, if_pos hmid]

theorem matchLoop_eq_diverge {s : Tree} {cur : Nat} {tokens : List Nat}
    {best : Option Nat} {n child : Node} {cid : Nat} (fuel : Nat) (h0 : tokens ≠ [])
    (hg : getNode s cur = some n) (hlk : lookupChild n (tokens.headD 0) = some cid)
    (hgc : getNode s cid = some child)
    (hz : ¬ longestCommonPrefix tokens child.Tokens = 0)
    (hnf : ¬ longestCommonPrefix tokens child.Tokens = child.Tokens.length)
    (hnmid : ¬ (longestCommonPrefix tokens child.Tokens = tokens.length ∧ IsReady child = true)) :
    matchLoop (fuel + 1) s cur tokens best = best := by
  rw [matchLoop, if_neg h0, hg]
  dsimp only
  rw [hlk]
  dsimp only
  rw [hgc]
  dsimp only
  rw [if_neg hz, if_neg hnf, if_neg hnmid]

/-! ## `ReachFrom` helper lemmas -/

theorem ReachFrom_trans {s : Tree} {a b c : Nat} {p q : List Nat}
    (h1 : ReachFrom s a b p) (h2 : ReachFrom s b c q) :
    ReachFrom s a c (p ++ q) := by
  induction h2 with
  | refl => simpa using h1
  | child hr hn hk hc ih =>
    rw [← List.append_assoc]
    exact ReachFrom.child ih hn hk hc

/-- One step of reachability. -/
theorem ReachFrom_step {s : Tree} {a k cid : Nat} {n c : Node}
    (hn : getNode s a = some n) (hk : (k, cid) ∈ n.Children)
    (hc : getNode s cid = some c) : ReachFrom s a cid c.Tokens := by
  have := ReachFrom.child (ReachFrom.refl) hn hk hc
  simpa using this

/-- Front decomposition: a derivation is the trivial one or starts with a
child edge of the start node. -/
theorem ReachFrom_cases {s : Tree} {a b : Nat} {p : List Nat}
    (h : ReachFrom s a b p) :
    (b = a ∧ p = []) ∨
    ∃ n k cid c p', getNode s a = some n ∧ (k, cid) ∈ n.Children ∧
      getNode s cid = some c ∧ p = c.Tokens ++ p' ∧ ReachFrom s cid b p' := by
  induction h with
  | refl => exact Or.inl ⟨rfl, rfl⟩
  | @child pid p0 k cid n c hr hn hk hc ih =>
    rcases ih with ⟨hba, hp0⟩ | ⟨n1, k1, cid1, c1, p1, hn1, hk1, hc1, hp1, hr1⟩
    · subst hba
      subst hp0
      refine Or.inr ⟨n, k, cid, c, [], hn, hk, hc, by simp, ReachFrom.refl⟩
    · subst hp1
      refine Or.inr ⟨n1, k1, cid1, c1, p1 ++ c.Tokens, hn1, hk1, hc1,
        by rw [List.append_assoc], ReachFrom.child hr1 hn hk hc⟩

/-- Under the invariant, an empty-path derivation is trivial. -/
theorem ReachFrom_nil {s : Tree} (hInv : Inv s) {a b : Nat}
    (h : ReachFrom s a b []) : b = a := by
  rcases ReachFrom_cases h with ⟨hba, _⟩ | ⟨n, k, cid, c, p', hn, hk, hc, hp, hr⟩
  · exact hba
  · obtain ⟨c1, hc1, hct, _⟩ := hInv.child_ok a n k cid hn hk
    rw [hc] at hc1
    cases hc1
    exact absurd (List.append_eq_nil.mp hp.symm).1 hct

theorem pfx_decomp {ct tokens : List Nat} (h : Pfx ct tokens) :
    tokens = ct ++ tokens.drop ct.length := by
  unfold Pfx at h
  conv_lhs => rw [← List.take_append_drop ct.length tokens]
  rw [h]

/-- Soundness of the `match` loop: the result is the incoming best, or a
gate-closed descendant of `cur` whose relative path is compatible with
the remaining query. -/
theorem matchLoop_sound {s : Tree} :
    ∀ (fl : Nat) {tokens : List Nat} {cur : Nat} {best : Option Nat},
    tokens ≠ [] →
    matchLoop fl s cur tokens best = best ∨
    ∃ r rp c, matchLoop fl s cur tokens best = some r ∧ ReachFrom s cur r rp ∧
      getNode s r = some c ∧ c.closedGate = true ∧ rp ≠ [] ∧
      (Pfx rp tokens ∨ Pfx tokens rp) := by
  intro fl
  induction fl with
  | zero =>
    intro tokens cur best h0
    exact Or.inl (matchLoop_zero s cur tokens best)
  | succ fl ih =>
    intro tokens cur best h0
    rcases hg : getNode s cur with _ | n
    · exact Or.inl (matchLoop_eq_deadcur fl h0 hg)
    · rcases hlk : lookupChild n (tokens.headD 0) with _ | cid
      · exact Or.inl (matchLoop_eq_nochild fl h0 hg hlk)
      · rcases hgc : getNode s cid with _ | child
        · exact Or.inl (matchLoop_eq_deadchild fl h0 hg hlk hgc)
        · have hkmem : (tokens.headD 0, cid) ∈ n.Children := alGet_mem _ _ _ hlk
          have hstep1 : ReachFrom s cur cid child.Tokens := ReachFrom_step hg hkmem hgc
          by_cases hz : longestCommonPrefix tokens child.Tokens = 0
          · exact Or.inl (matchLoop_eq_zero fl h0 hg hlk hgc hz)
          · by_cases hf : longestCommonPrefix tokens child.Tokens = child.Tokens.length
            · -- full edge consumed: descend
              rw [matchLoop_eq_descend fl h0 hg hlk hgc hz hf]
              have hctne : child.Tokens ≠ [] := by
                intro he
                apply hz
                rw [he]
                exact lcp_nil_right tokens
              have hpfx_ct : Pfx child.Tokens tokens := pfx_of_lcp_right hf
              have hdecomp : tokens = child.Tokens ++
                  tokens.drop (longestCommonPrefix tokens child.Tokens) := by
                rw [hf]
                exact pfx_decomp hpfx_ct
              by_cases hemp : tokens.drop (longestCommonPrefix tokens child.Tokens) = []
              · rw [hemp, matchLoop_any_nil]
                cases hready : IsReady child with
                | false => exact Or.inl rfl
                | true =>
                  right
                  refine ⟨cid, child.Tokens, child, rfl, hstep1, hgc,
                    hready, hctne, Or.inl hpfx_ct⟩
              · rcases ih hemp with hl | ⟨r, rp, c, hres, hreach, hc, hcg, hrpne, hcompat⟩
                · rw [hl]
                  cases hready : IsReady child with
                  | false => exact Or.inl rfl
                  | true =>
                    right
                    refine ⟨cid, child.Tokens, child, rfl, hstep1, hgc,
                      hready, hctne, Or.inl hpfx_ct⟩
                · right
                  refine ⟨r, child.Tokens ++ rp, c, hres, ReachFrom_trans hstep1 hreach,
                    hc, hcg, by simp [hctne], ?_⟩
                  rcases hcompat with hc1 | hc1
                  · left
                    rw [hdecomp]
                    exact Pfx_append_congr hc1
                  · right
                    rw [hdecomp]
                    exact Pfx_append_congr hc1
            · by_cases hmid : longestCommonPrefix tokens child.Tokens = tokens.length ∧
                  IsReady child = true
              · right
                refine ⟨cid, child.Tokens, child, matchLoop_eq_midedge fl h0 hg hlk hgc hz hf hmid,
                  hstep1, hgc, hmid.2, ?_, Or.inr (pfx_of_lcp_left hmid.1)⟩
                intro he
                rw [he] at hz
                exact hz (lcp_nil_right tokens)
              · exact Or.inl (matchLoop_eq_diverge fl h0 hg hlk hgc hz hf hmid)

/-- Maximality of the `match` loop: whenever some gate-closed descendant
of `cur` lies on the query path, the loop returns a node at least as
deep. -/
theorem matchLoop_max {s : Tree} (hInv : Inv s) :
    ∀ (fl : Nat) {tokens : List Nat} {cur : Nat} {best : Option Nat} {mid : Nat}
      {m : Node} {rp : List Nat},
    tokens.length ≤ fl → tokens ≠ [] →
    ReachFrom s cur mid rp → getNode s mid = some m → m.closedGate = true →
    rp ≠ [] → Pfx rp tokens →
    ∃ r rp2, matchLoop (fl + 1) s cur tokens best = some r ∧ ReachFrom s cur r rp2 ∧
      rp.length ≤ rp2.length ∧ (Pfx rp2 tokens ∨ Pfx tokens rp2) := by
  intro fl
  induction fl with
  | zero =>
    intro tokens cur best mid m rp hlen h0
    exact absurd (List.eq_nil_of_length_eq_zero (Nat.le_zero.mp hlen)) h0
  | succ fl ih =>
    intro tokens cur best mid m rp hlen h0 hreach hm hcg hrpne hpfx
    rcases ReachFrom_cases hreach with ⟨_, hrp⟩ | ⟨n, k, cid, c, rp', hg, hk, hgc, hrp, hr'⟩
    · exact absurd hrp hrpne
    · obtain ⟨c0, hc0, hctne, hchead⟩ := hInv.child_ok cur n k cid hg hk
      rw [hgc] at hc0
      cases hc0
      have hpfx_ct : Pfx c.Tokens tokens := by
        refine Pfx_trans ?_ hpfx
        rw [hrp]
        exact Pfx_append _ _
      have hhead : k = tokens.headD 0 := by
        rw [← hchead]
        exact Pfx_head hpfx_ct hctne
      have hlk : lookupChild n (tokens.headD 0) = some cid :=
        mem_alGet_of_nodup _ _ _ (hInv.keys_nodup cur n hg) (hhead ▸ hk)
      have hlcp : longestCommonPrefix tokens c.Tokens = c.Tokens.length :=
        lcp_of_pfx_right hpfx_ct
      have hz : ¬ longestCommonPrefix tokens c.Tokens = 0 := by
        rw [hlcp]
        intro hzz
        exact hctne (List.eq_nil_of_length_eq_zero hzz)
      rw [matchLoop_eq_descend (fl + 1) h0 hg hlk hgc hz hlcp]
      have hdecomp : tokens = c.Tokens ++
          tokens.drop (longestCommonPrefix tokens c.Tokens) := by
        rw [hlcp]
        exact pfx_decomp hpfx_ct
      have hstep1 : ReachFrom s cur cid c.Tokens := ReachFrom_step hg hk hgc
      have hlen' : (tokens.drop (longestCommonPrefix tokens c.Tokens)).length ≤ fl := by
        rw [List.length_drop]
        have h1 : 0 < tokens.length := List.length_pos.mpr h0
        have h2 : 0 < longestCommonPrefix tokens c.Tokens := Nat.pos_of_ne_zero hz
        omega
      by_cases hrp' : rp' = []
      · -- the witness is exactly the child we descend into
        have hmidcid : mid = cid := ReachFrom_nil hInv (hrp' ▸ hr')
        have hcm : c = m := by
          rw [hmidcid] at hm
          rw [hgc] at hm
          exact Option.some.injEq .. ▸ hm
        have hready : IsReady c = true := by
          unfold IsReady
          rw [hcm]
          exact hcg
        have hrpct : rp = c.Tokens := by
          rw [hrp, hrp']
          exact List.append_nil _
        by_cases hemp : tokens.drop (longestCommonPrefix tokens c.Tokens) = []
        · rw [hemp, matchLoop_any_nil, if_pos hready]
          exact ⟨cid, c.Tokens, rfl, hstep1, by rw [hrpct], Or.inl hpfx_ct⟩
        · rw [if_pos hready]
          rcases matchLoop_sound (fl + 1) hemp with hl | ⟨r, rp3, c', hres, hreach3, hc', hcg', hrp3ne, hcompat⟩
          · rw [hl]
            exact ⟨cid, c.Tokens, rfl, hstep1, by rw [hrpct], Or.inl hpfx_ct⟩
          · refine ⟨r, c.Tokens ++ rp3, hres, ReachFrom_trans hstep1 hreach3, ?_, ?_⟩
            · rw [hrpct]
              simp
            · rcases hcompat with hc1 | hc1
              · left
                rw [hdecomp]
                exact Pfx_append_congr hc1
              · right
                rw [hdecomp]
                exact Pfx_append_congr hc1
      · -- the witness lies deeper: use the induction hypothesis
        have hpfx' : Pfx rp' (tokens.drop (longestCommonPrefix tokens c.Tokens)) := by
          refine @Pfx_append_cancel c.Tokens rp' _ ?_
          rw [← hrp, ← hdecomp]
          exact hpfx
        have hemp : tokens.drop (longestCommonPrefix tokens c.Tokens) ≠ [] := by
          intro he
          rw [he] at hpfx'
          have := Pfx_length_le hpfx'
          simp at this
          exact hrp' this
        obtain ⟨r, rp3, hres, hreach3, hlen3, hcompat⟩ :=
          ih hlen' hemp hr' hm hcg hrp' hpfx'
        refine ⟨r, c.Tokens ++ rp3, hres, ReachFrom_trans hstep1 hreach3, ?_, ?_⟩
        · rw [hrp]
          simp only [List.length_append]
          omega
        · rcases hcompat with hc1 | hc1
          · left
            rw [hdecomp]
            exact Pfx_append_congr hc1
          · right
            rw [hdecomp]
            exact Pfx_append_congr hc1

/-- Under the invariant, the root-to-node token concatenation is unique:
the "represented prefix" of a node is well-defined. -/
theorem ReachesAt_unique {s : Tree} (hInv : Inv s) {nid : Nat} {p1 p2 : List Nat}
    (h1 : ReachesAt s nid p1) (h2 : ReachesAt s nid p2) : p1 = p2 := by
  unfold ReachesAt at h1 h2
  induction h1 generalizing p2 with
  | refl =>
    cases h2 with
    | refl => rfl
    | child hr hn hk hc => exact absurd hk (hInv.root_not_child _ _ _ hn)
  | @child pid1 q1 k1 cid n1 c1 hr1 hn1 hk1 hc1 ih =>
    cases h2 with
    | refl => exact absurd hk1 (hInv.root_not_child _ _ _ hn1)
    | @child pid2 q2 k2 cid2 n2 c2 hr2 hn2 hk2 hc2 =>
      obtain ⟨hp, hkk⟩ := hInv.parent_uniq pid1 n1 k1 pid2 n2 k2 cid hn1 hn2 hk1 hk2
      subst hp
      rw [hn1] at hn2
      cases hn2
      rw [hc1] at hc2
      cases hc2
      rw [ih hr2]

/-! ## Running operation lists -/

theorem execOps_append (ops : List Op) (op : Op) :
    execOps (ops ++ [op]) = (execOps ops).bind (fun s => stepOp s op) := by
  unfold execOps
  rw [List.foldl_append]
  rfl

theorem execOps_ReachW {P : Op → Prop} : ∀ (ops : List Op) (s : Tree),
    execOps ops = some s → (∀ op ∈ ops, P op) → ReachW P s := by
  intro ops
  induction ops using List.reverseRecOn with
  | nil =>
    intro s h hP
    have : s = NewTree := by simpa [execOps] using h.symm
    rw [this]
    exact ReachW.init
  | append_singleton ops op ih =>
    intro s h hP
    rw [execOps_append] at h
    rcases he : execOps ops with _ | s0
    · rw [he] at h
      cases h
    · rw [he] at h
      dsimp only [Option.bind] at h
      exact ReachW.step (ih s0 he (fun o ho => hP o (List.mem_append_left _ ho)))
        (hP op (List.mem_append_right _ (List.mem_singleton_self op))) h

theorem IFReach_NPReach {s : Tree} (h : IFReach s) : NPReach s :=
  ReachW_mono (fun op hop => by cases op <;> trivial) h

theorem Match_eq_loop {s : Tree} {q : List Nat} (h0 : q ≠ []) :
    Match s q = matchLoop (q.length + 1) s s.rootId q none := by
  unfold Match
  rw [if_neg h0]

/-! ## Claim C1 -/

/-- C1: amended match correctness.  On every trie built by
`InsertPending` and `FinalizeNode` operations, `Match q` returns `none`
only when no gate-closed node beyond the root spells a prefix of `q`;
when it returns a node, that node is finalized (closed gate, no error)
and its root-to-node concatenation is a prefix of `q` — or, when the
query ends inside the node's edge, `q` is a prefix of the concatenation —
and no ready node in the trie represents a longer prefix of `q`. -/
theorem C1_match_longest_ready_prefix {s : Tree} (hs : IFReach s) (q : List Nat) :
    (Match s q = none →
      ∀ mid m pm, getNode s mid = some m → m.closedGate = true →
        ReachesAt s mid pm → Pfx pm q → pm = []) ∧
    (∀ nid, Match s q = some nid → q ≠ [] →
      ∃ n pn, getNode s nid = some n ∧ n.closedGate = true ∧ n.err = none ∧
        ReachesAt s nid pn ∧ (Pfx pn q ∨ Pfx q pn) ∧
        (∀ mid m pm, getNode s mid = some m → m.closedGate = true →
          ReachesAt s mid pm → Pfx pm q → pm.length ≤ pn.length)) := by
  have hInv : Inv s := Reach_Inv hs
  have hnp : noPoison s := NPReach_noPoison (IFReach_NPReach hs)
  constructor
  · intro hnone mid m pm hm hcg hre hpfx
    by_cases hq : q = []
    · subst hq
      unfold Match at hnone
      rw [if_pos rfl] at hnone
      cases hnone
    · by_contra hpm
      obtain ⟨r, rp2, hres, _, _, _⟩ :=
        @matchLoop_max s hInv q.length q s.rootId none mid m pm (Nat.le_refl _) hq
          hre hm hcg hpm hpfx
      rw [Match_eq_loop hq] at hnone
      rw [hnone] at hres
      cases hres
  · intro nid hsome hq
    rw [Match_eq_loop hq] at hsome
    rcases matchLoop_sound (q.length + 1) hq with hl |
        ⟨r, rp, c, hres, hre, hc, hcg, hrpne, hcompat⟩
    · rw [hl] at hsome
      cases hsome
    · rw [hres] at hsome
      have hr : r = nid := by simpa using hsome
      subst hr
      refine ⟨c, rp, hc, hcg, hnp _ _ hc, hre, hcompat, ?_⟩
      intro mid m pm hm hcg' hre' hpfx'
      by_cases hpm : pm = []
      · subst hpm
        exact Nat.zero_le _
      · obtain ⟨r', rp2, hres', hre2, hlen2, _⟩ :=
          @matchLoop_max s hInv q.length q s.rootId none mid m pm (Nat.le_refl _) hq
            hre' hm hcg' hpm hpfx'
        rw [hres] at hres'
        have hr' : r = r' := by simpa using hres'
        subst hr'
        have : rp2 = rp := ReachesAt_unique hInv hre2 hre
        rw [this] at hlen2
        exact hlen2

/-- The concrete trie of the C1 counterexample: one finalized node with
edge `[1,2,3,4,5]` under the root. -/
def C1ops : List Op := [Op.insertPending [1, 2, 3, 4, 5], Op.finalize 1 100]

def C1state : Tree := (execOps C1ops).getD NewTree

/-- C1 as frozen is false: on the trie holding only the ready node
`[1,2,3,4,5]`, no node's concatenation is a prefix of the query
`[1,2,3]`, so the claim demands `nil`; the code returns that node (its
edge merely extends the query). -/
theorem C1_counterexample :
    (execOps C1ops).isSome = true ∧
    Match C1state [1, 2, 3] = some 1 ∧
    ReachesAt C1state 1 [1, 2, 3, 4, 5] ∧
    (getNode C1state 1).map Node.closedGate = some true ∧
    (getNode C1state 1).map Node.err = some none ∧
    ¬ Pfx [1, 2, 3, 4, 5] [1, 2, 3] := by
  refine ⟨by decide, by decide, ?_, by decide, by decide, by decide⟩
  have hn : getNode C1state C1state.rootId =
      some ⟨[], [(1, 1)], none, 0, false, none, 0, false⟩ := by decide
  have hc : getNode C1state 1 =
      some ⟨[1, 2, 3, 4, 5], [], some 0, 100, true, none, 1, false⟩ := by decide
  have hk : ((1 : Nat), (1 : Nat)) ∈
      (⟨[], [(1, 1)], none, 0, false, none, 0, false⟩ : Node).Children := by decide
  exact ReachFrom.child ReachFrom.refl hn hk hc

/-- Witness for the amended C1 at a concrete reachable trie and query. -/
theorem C1_witness :
    IFReach C1state ∧
    ((Match C1state [1, 2, 3, 4, 5, 6] = none →
      ∀ mid m pm, getNode C1state mid = some m → m.closedGate = true →
        ReachesAt C1state mid pm → Pfx pm [1, 2, 3, 4, 5, 6] → pm = []) ∧
    (∀ nid, Match C1state [1, 2, 3, 4, 5, 6] = some nid → [1, 2, 3, 4, 5, 6] ≠ [] →
      ∃ n pn, getNode C1state nid = some n ∧ n.closedGate = true ∧ n.err = none ∧
        ReachesAt C1state nid pn ∧ (Pfx pn [1, 2, 3, 4, 5, 6] ∨ Pfx [1, 2, 3, 4, 5, 6] pn) ∧
        (∀ mid m pm, getNode C1state mid = some m → m.closedGate = true →
          ReachesAt C1state mid pm → Pfx pm [1, 2, 3, 4, 5, 6] →
          pm.length ≤ pn.length))) := by
  have hexec : execOps C1ops = some C1state := by decide
  have hmem : ∀ op ∈ C1ops, isInsertOrFinalize op := by
    intro op hop
    rcases List.mem_cons.mp hop with h | hop2
    · subst h
      trivial
    rcases List.mem_cons.mp hop2 with h | hop3
    · subst h
      trivial
    · exact absurd hop3 (List.not_mem_nil op)
  have hreach : IFReach C1state := execOps_ReachW C1ops C1state hexec hmem
  exact ⟨hreach, C1_match_longest_ready_prefix hreach [1, 2, 3, 4, 5, 6]⟩

/-! ## Claim C2 -/

/-- C2: amended.  A non-empty query that matches returns a gate-closed
node — never a pending one.  The frozen claim's other half is false:
`IsReady` tests only the gate, which `PoisonNode` closes too, so a
poisoned node can be returned (see the counterexample). -/
theorem C2_match_never_pending {s : Tree} {q : List Nat} {nid : Nat}
    (hq : q ≠ []) (hsome : Match s q = some nid) :
    ∃ n, getNode s nid = some n ∧ n.closedGate = true := by
  rw [Match_eq_loop hq] at hsome
  rcases matchLoop_sound (q.length + 1) hq with hl |
      ⟨r, rp, c, hres, _, hc, hcg, _, _⟩
  · rw [hl] at hsome
    cases hsome
  · rw [hres] at hsome
    have hr : r = nid := by simpa using hsome
    subst hr
    exact ⟨c, hc, hcg⟩

def C2ops : List Op := [Op.insertPending [1, 2, 3], Op.poison 1 "computation failed"]

def C2state : Tree := (execOps C2ops).getD NewTree

/-- C2 as frozen is false: after poisoning the only node, `Match` still
returns it — its gate is closed, so `IsReady` holds although `err` is
set and no cache handle was ever stored. -/
theorem C2_counterexample :
    (execOps C2ops).isSome = true ∧
    Match C2state [1, 2, 3] = some 1 ∧
    (getNode C2state 1).map Node.err = some (some "computation failed") ∧
    (getNode C2state 1).map Node.CacheHandle = some 0 := by
  refine ⟨by decide, by decide, rfl, rfl⟩

/-- Witness for the amended C2 at the poisoned one-node trie. -/
theorem C2_witness :
    ([1, 2, 3] : List Nat) ≠ [] ∧ Match C2state [1, 2, 3] = some 1 ∧
    ∃ n, getNode C2state 1 = some n ∧ n.closedGate = true :=
  ⟨by decide, by decide,
    @C2_match_never_pending C2state [1, 2, 3] 1 (by decide) (by decide)⟩

/-! ## Claim C3 -/

/-- The root of the herd tree: one child entry for the inserted
sequence's first token. -/
def herdRoot (ts : List Nat) : Node :=
  { NewNode [] none with Children := [(ts.headD 0, 1)] }

/-- The one node the herd creates, pinned `k` times. -/
def herdNode (ts : List Nat) (k : Int) : Node :=
  { NewNode ts (some 0) with refCount := k }

/-- The tree after `k` inserts of the same sequence into an empty tree. -/
def herdTree (ts : List Nat) (k : Int) : Tree :=
  { nodes := [(0, herdRoot ts), (1, herdNode ts k)], rootId := 0,
    lruList := [], nextId := 2 }

/-- Iterate `InsertPending` with one fixed sequence, collecting the
returned node ids and threading the engine log. -/
def insertN (ts : List Nat) : Nat → Option (Tree × List Nat × List (List Nat))
  | 0 => some (NewTree, [], [])
  | n + 1 =>
    (insertN ts n).bind (fun p =>
      (InsertPending p.1 ts p.2.2).map (fun r => (r.1, p.2.1 ++ [r.2.1], r.2.2)))

theorem insertN_succ (ts : List Nat) (n : Nat) :
    insertN ts (n + 1) = (insertN ts n).bind (fun p =>
      (InsertPending p.1 ts p.2.2).map (fun r => (r.1, p.2.1 ++ [r.2.1], r.2.2))) := rfl

/-- The first insert of a non-empty sequence into the empty tree creates
the herd node. -/
theorem C3_first {ts : List Nat} (h0 : ts ≠ []) :
    InsertPending NewTree ts [] = some (herdTree ts 1, 1, []) := by
  have hg : getNode NewTree 0 = some (NewNode [] none) := rfl
  have hlk : lookupChild (NewNode [] none) (ts.headD 0) = none := rfl
  have hE : findExactOrPending (ts.length + 1) NewTree ts 0 = some (none, ts) := by
    rw [findExactOrPending, if_neg h0, hg]
    dsimp only
    rw [hlk]
  have hP : findParentFor (ts.length + 1) NewTree ts 0 = some 0 := by
    rw [findParentFor, if_neg h0, hg]
    dsimp only
    rw [hlk]
  rw [@InsertPending_create_spec NewTree ts [] ts 0 hE hP (NewNode [] none) rfl
    (by decide)]
  rfl

/-- A repeat insert of the same sequence finds the herd node exactly and
only bumps its pin count. -/
theorem C3_step {ts : List Nat} (h0 : ts ≠ []) (k : Int) (elog : List (List Nat)) :
    InsertPending (herdTree ts k) ts elog = some (herdTree ts (k + 1), 1, elog) := by
  have hg : getNode (herdTree ts k) 0 = some (herdRoot ts) := rfl
  have hgc : getNode (herdTree ts k) 1 = some (herdNode ts k) := rfl
  have hlk : lookupChild (herdRoot ts) (ts.headD 0) = some 1 := by
    simp [lookupChild, herdRoot, NewNode, alGet]
  have hE : findExactOrPending (ts.length + 1) (herdTree ts k) ts 0 =
      some (some 1, []) := by
    rw [findExactOrPending, if_neg h0, hg]
    dsimp only
    rw [hlk]
    dsimp only
    rw [hgc]
    dsimp only
    have hts : (herdNode ts k).Tokens = ts := rfl
    rw [hts, lcp_self]
    rw [if_pos ⟨rfl, rfl⟩]
    rw [if_neg (by simp [herdNode, NewNode])]
  rw [InsertPending_reuse_spec hE hgc]
  rfl

/-- C3: herd coalescing.  For every `N ≥ 1`, `N` inserts of one
non-empty sequence into an empty tree all return node `1`, the tree
holds exactly one non-root node whose pin count is `N`, and
`InsertPending` itself logged no engine `ForwardWithCache` call. -/
theorem C3_insert_herd_coalesces {ts : List Nat} (h0 : ts ≠ []) :
    ∀ N : Nat, 1 ≤ N →
    insertN ts N = some (herdTree ts (N : Int), List.replicate N 1, []) ∧
    (herdTree ts (N : Int)).nodes.length = 2 ∧
    getNode (herdTree ts (N : Int)) 1 = some (herdNode ts (N : Int)) ∧
    (herdNode ts (N : Int)).refCount = (N : Int) := by
  intro N hN
  refine ⟨?_, rfl, rfl, rfl⟩
  induction N, hN using Nat.le_induction with
  | base =>
    have h1 : insertN ts 1 = (some ((NewTree : Tree), ([] : List Nat),
        ([] : List (List Nat)))).bind (fun p =>
      (InsertPending p.1 ts p.2.2).map (fun r => (r.1, p.2.1 ++ [r.2.1], r.2.2))) := rfl
    rw [h1, Option.some_bind]
    dsimp only
    rw [C3_first h0]
    simp
  | succ N hN ih =>
    rw [insertN_succ, ih, Option.some_bind]
    dsimp only
    rw [C3_step h0 (N : Int) []]
    simp [List.replicate_succ']

/-- Witness for C3 at the sequence `[5, 7]` and three callers. -/
theorem C3_witness :
    ([5, 7] : List Nat) ≠ [] ∧ 1 ≤ 3 ∧
    (insertN [5, 7] 3 = some (herdTree [5, 7] (3 : Int), List.replicate 3 1, []) ∧
     (herdTree [5, 7] (3 : Int)).nodes.length = 2 ∧
     getNode (herdTree [5, 7] (3 : Int)) 1 = some (herdNode [5, 7] (3 : Int)) ∧
     (herdNode [5, 7] (3 : Int)).refCount = (3 : Int)) :=
  ⟨by decide, by decide, C3_insert_herd_coalesces (by decide) 3 (by decide)⟩

/-! ## Claim C4 -/

/-- The quantity the claim meters: total `len(edge_tokens)` over the
non-root nodes of the heap. -/
def sumEdgeTokens (s : Tree) : Nat :=
  ((s.nodes.filter (fun kn => kn.1 != s.rootId)).map
    (fun kn => kn.2.Tokens.length)).sum

/-- C4: amended.  The `Tree` struct carries no token meter and no
`max_tokens` field at all; the edge-token total is simply determined by
the inserts — a first insert makes it exactly the inserted length — and
for every candidate budget some tree built by the public API exceeds
it. -/
theorem C4_edge_token_total {ts : List Nat} (h0 : ts ≠ []) :
    (InsertPending NewTree ts [] = some (herdTree ts 1, 1, []) ∧
     sumEdgeTokens (herdTree ts 1) = ts.length) ∧
    (∀ B : Nat, ∃ ops : List Op, ∃ s2 : Tree, execOps ops = some s2 ∧
      (∀ op ∈ ops, isInsertOrFinalize op) ∧ B < sumEdgeTokens s2) := by
  refine ⟨⟨C3_first h0, rfl⟩, ?_⟩
  intro B
  have hne : List.replicate (B + 1) 0 ≠ ([] : List Nat) := by simp
  refine ⟨[Op.insertPending (List.replicate (B + 1) 0)],
    herdTree (List.replicate (B + 1) 0) 1, ?_, ?_, ?_⟩
  · show (some NewTree).bind
        (fun s => stepOp s (Op.insertPending (List.replicate (B + 1) 0))) = _
    rw [Option.some_bind]
    show (InsertPending NewTree (List.replicate (B + 1) 0) []).map (fun r => r.1) = _
    rw [C3_first hne]
    rfl
  · intro op hop
    rcases List.mem_singleton.mp hop with rfl
    trivial
  · have hsum : sumEdgeTokens (herdTree (List.replicate (B + 1) 0) 1) =
        (List.replicate (B + 1) 0).length := rfl
    rw [hsum, List.length_replicate]
    omega

/-- Witness for the amended C4 at `[1, 2, 3]`. -/
theorem C4_witness :
    ([1, 2, 3] : List Nat) ≠ [] ∧
    ((InsertPending NewTree [1, 2, 3] [] = some (herdTree [1, 2, 3] 1, 1, []) ∧
      sumEdgeTokens (herdTree [1, 2, 3] 1) = 3) ∧
     (∀ B : Nat, ∃ ops : List Op, ∃ s2 : Tree, execOps ops = some s2 ∧
       (∀ op ∈ ops, isInsertOrFinalize op) ∧ B < sumEdgeTokens s2)) :=
  ⟨by decide, C4_edge_token_total (by decide)⟩

/-- C4 as frozen is false on its own examples: the spec's budget (its
walkthrough uses `max_tokens = 3`) does not exist in the struct and is
not enforced — one public insert already takes the edge-token total to
5. -/
theorem C4_counterexample :
    execOps [Op.insertPending [1, 2, 3, 4, 5]] =
      some (herdTree [1, 2, 3, 4, 5] 1) ∧
    sumEdgeTokens (herdTree [1, 2, 3, 4, 5] 1) = 5 ∧
    ¬ sumEdgeTokens (herdTree [1, 2, 3, 4, 5] 1) ≤ 3 := by
  refine ⟨by decide, by decide, by decide⟩

/-! ## Claim C5 -/

/-- When `findExactOrPending` reports a match, the walked path from
`start` to the matched node spells the whole query and nothing remains. -/
theorem walk_exact {s : Tree} :
    ∀ (fuel : Nat) {tokens : List Nat} {start m : Nat} {rem : List Nat},
    findExactOrPending fuel s tokens start = some (some m, rem) →
    ReachFrom s start m tokens ∧ rem = [] := by
  intro fuel
  induction fuel with
  | zero =>
    intro tokens start m rem h
    rw [findExactOrPending] at h
    cases h
  | succ fuel ih =>
    intro tokens start m rem h
    rw [findExactOrPending] at h
    by_cases h0 : tokens = []
    · rw [if_pos h0] at h
      have hm : start = m ∧ ([] : List Nat) = rem := by simpa using h
      subst h0
      rw [← hm.1, ← hm.2]
      exact ⟨ReachFrom.refl, rfl⟩
    · rw [if_neg h0] at h
      rcases hgs : getNode s start with _ | n
      · rw [hgs] at h
        dsimp only at h
        simp at h
      · rw [hgs] at h
        dsimp only at h
        rcases hlk : lookupChild n (tokens.headD 0) with _ | cid
        · rw [hlk] at h
          dsimp only at h
          simp at h
        · rw [hlk] at h
          dsimp only at h
          rcases hgc : getNode s cid with _ | child
          · rw [hgc] at h
            dsimp only at h
            simp at h
          · rw [hgc] at h
            dsimp only at h
            by_cases hex : longestCommonPrefix tokens child.Tokens = child.Tokens.length ∧
                longestCommonPrefix tokens child.Tokens = tokens.length
            · rw [if_pos hex] at h
              by_cases herr : child.err ≠ none
              · rw [if_pos herr] at h
                simp at h
              · rw [if_neg herr] at h
                have hm : cid = m ∧ ([] : List Nat) = rem := by simpa using h
                have hpfx1 : Pfx child.Tokens tokens := pfx_of_lcp_right hex.1
                have hpfx2 : Pfx tokens child.Tokens := pfx_of_lcp_left hex.2
                have heq : child.Tokens = tokens := Pfx_antisymm hpfx1 hpfx2
                have hkmem : (tokens.headD 0, cid) ∈ n.Children := alGet_mem _ _ _ hlk
                have hstep := ReachFrom_step hgs hkmem hgc
                rw [heq] at hstep
                rw [← hm.1, ← hm.2]
                exact ⟨hstep, rfl⟩
            · rw [if_neg hex] at h
              by_cases hf : longestCommonPrefix tokens child.Tokens = child.Tokens.length
              · rw [if_pos hf] at h
                obtain ⟨hr, hrem⟩ := ih h
                have hpfx1 : Pfx child.Tokens tokens := pfx_of_lcp_right hf
                have hkmem : (tokens.headD 0, cid) ∈ n.Children := alGet_mem _ _ _ hlk
                have hstep := ReachFrom_step hgs hkmem hgc
                have hdecomp : tokens = child.Tokens ++
                    tokens.drop (longestCommonPrefix tokens child.Tokens) := by
                  rw [hf]
                  exact pfx_decomp hpfx1
                refine ⟨?_, hrem⟩
                rw [hdecomp]
                exact ReachFrom_trans hstep hr
              · rw [if_neg hf] at h
                simp at h

/-- In a poison-free tree, when `findExactOrPending` finds no node,
`findParentFor` stops at a node whose path from `start` spells exactly
the consumed part of the query. -/
theorem walk_create {s : Tree} (hnp : noPoison s) :
    ∀ (fuel : Nat) {tokens : List Nat} {start : Nat} {rem : List Nat},
    findExactOrPending fuel s tokens start = some (none, rem) →
    ∃ P d, findParentFor fuel s tokens start = some P ∧
      ReachFrom s start P d ∧ tokens = d ++ rem := by
  intro fuel
  induction fuel with
  | zero =>
    intro tokens start rem h
    rw [findExactOrPending] at h
    cases h
  | succ fuel ih =>
    intro tokens start rem h
    rw [findExactOrPending] at h
    by_cases h0 : tokens = []
    · rw [if_pos h0] at h
      simp at h
    · rw [if_neg h0] at h
      rcases hgs : getNode s start with _ | n
      · rw [hgs] at h
        dsimp only at h
        have hrem : tokens = rem := by simpa using h
        refine ⟨start, [], ?_, ReachFrom.refl, by rw [List.nil_append]; exact hrem⟩
        rw [findParentFor, if_neg h0, hgs]
      · rw [hgs] at h
        dsimp only at h
        rcases hlk : lookupChild n (tokens.headD 0) with _ | cid
        · rw [hlk] at h
          dsimp only at h
          have hrem : tokens = rem := by simpa using h
          refine ⟨start, [], ?_, ReachFrom.refl, by rw [List.nil_append]; exact hrem⟩
          rw [findParentFor, if_neg h0, hgs]
          dsimp only
          rw [hlk]
        · rw [hlk] at h
          dsimp only at h
          rcases hgc : getNode s cid with _ | child
          · rw [hgc] at h
            dsimp only at h
            have hrem : tokens = rem := by simpa using h
            refine ⟨start, [], ?_, ReachFrom.refl, by rw [List.nil_append]; exact hrem⟩
            rw [findParentFor, if_neg h0, hgs]
            dsimp only
            rw [hlk]
            dsimp only
            rw [hgc]
          · rw [hgc] at h
            dsimp only at h
            have herr : child.err = none := hnp cid child hgc
            by_cases hex : longestCommonPrefix tokens child.Tokens = child.Tokens.length ∧
                longestCommonPrefix tokens child.Tokens = tokens.length
            · rw [if_pos hex] at h
              rw [if_neg (by simp [herr])] at h
              simp at h
            · rw [if_neg hex] at h
              by_cases hf : longestCommonPrefix tokens child.Tokens = child.Tokens.length
              · rw [if_pos hf] at h
                obtain ⟨P, d, hP, hreach, hsplit⟩ := ih h
                have hkmem : (tokens.headD 0, cid) ∈ n.Children := alGet_mem _ _ _ hlk
                have hstep := ReachFrom_step hgs hkmem hgc
                have hpfx1 : Pfx child.Tokens tokens := pfx_of_lcp_right hf
                have hdecomp : tokens = child.Tokens ++
                    tokens.drop (longestCommonPrefix tokens child.Tokens) := by
                  rw [hf]
                  exact pfx_decomp hpfx1
                refine ⟨P, child.Tokens ++ d, ?_, ReachFrom_trans hstep hreach, ?_⟩
                · rw [findParentFor, if_neg h0, hgs]
                  dsimp only
                  rw [hlk]
                  dsimp only
                  rw [hgc]
                  dsimp only
                  rw [if_neg (by simp [herr]), if_pos hf]
                  exact hP
                · rw [List.append_assoc, ← hsplit]
                  exact hdecomp
              · rw [if_neg hf] at h
                have hrem : tokens = rem := by simpa using h
                refine ⟨start, [], ?_, ReachFrom.refl, by rw [List.nil_append]; exact hrem⟩
                rw [findParentFor, if_neg h0, hgs]
                dsimp only
                rw [hlk]
                dsimp only
                rw [hgc]
                dsimp only
                rw [if_neg (by simp [herr]), if_neg hf]

/-- Paths transfer between trees whose live nodes agree on edge tokens
and child maps. -/
theorem ReachFrom_of_same_struct {s s' : Tree}
    (h : ∀ mid n', getNode s' mid = some n' → ∃ n, getNode s mid = some n ∧
      n.Tokens = n'.Tokens ∧ n.Children = n'.Children) :
    ∀ {a b : Nat} {p : List Nat}, ReachFrom s' a b p → ReachFrom s a b p := by
  intro a b p hr
  induction hr with
  | refl => exact ReachFrom.refl
  | @child pid p0 k cid n0 c0 hr0 hn hk hc ih =>
    obtain ⟨n1, hn1, _, hch1⟩ := h pid n0 hn
    obtain ⟨c1, hc1, hct1, _⟩ := h cid c0 hc
    have := ReachFrom.child ih hn1 (by rw [hch1]; exact hk) hc1
    rw [hct1] at this
    exact this

/-- C5: amended.  In trees built without `PoisonNode`, insertion keeps
the radix shape: sibling children never share a first edge token, each
node's root-to-node edge concatenation is unique, and the node
`InsertPending` returns spells exactly the inserted sequence.  With
poisoning the property fails (see the counterexample): the new node is
attached below the poisoned match and its path repeats that edge. -/
theorem C5_radix_property {s : Tree} (hs : NPReach s) {ts : List Nat}
    {s' : Tree} {nid : Nat}
    (hI : InsertPending s ts [] = some (s', nid, [])) :
    (∀ pid n k1 c1 k2 c2 m1 m2, getNode s' pid = some n →
      (k1, c1) ∈ n.Children → (k2, c2) ∈ n.Children →
      getNode s' c1 = some m1 → getNode s' c2 = some m2 →
      m1.Tokens.headD 0 = m2.Tokens.headD 0 → k1 = k2 ∧ c1 = c2) ∧
    (∀ mid p1 p2, ReachesAt s' mid p1 → ReachesAt s' mid p2 → p1 = p2) ∧
    (∀ p, ReachesAt s' nid p → p = ts) := by
  have hInv : Inv s := Reach_Inv hs
  have hnp : noPoison s := NPReach_noPoison hs
  have hstep : stepOp s (Op.insertPending ts) = some s' := by
    simp only [stepOp, hI, Option.map_some']
  have hs' : NPReach s' := ReachW.step hs (by trivial) hstep
  have hInv' : Inv s' := Reach_Inv hs'
  refine ⟨?_, fun mid p1 p2 h1 h2 => ReachesAt_unique hInv' h1 h2, ?_⟩
  · intro pid n k1 c1 k2 c2 m1 m2 hn hk1 hk2 hm1 hm2 hhead
    obtain ⟨c1', hc1', hne1, hh1⟩ := hInv'.child_ok pid n k1 c1 hn hk1
    obtain ⟨c2', hc2', hne2, hh2⟩ := hInv'.child_ok pid n k2 c2 hn hk2
    obtain rfl : c1' = m1 := by rw [hm1] at hc1'; simpa using hc1'.symm
    obtain rfl : c2' = m2 := by rw [hm2] at hc2'; simpa using hc2'.symm
    have hkk : k1 = k2 := by rw [← hh1, ← hh2, hhead]
    subst hkk
    have hnd := hInv'.keys_nodup pid n hn
    have e1 := mem_alGet_of_nodup _ _ _ hnd hk1
    have e2 := mem_alGet_of_nodup _ _ _ hnd hk2
    rw [e1] at e2
    exact ⟨rfl, by simpa using e2⟩
  · rcases hE : findExactOrPending (ts.length + 1) s ts s.rootId with _ | ⟨exi, rem⟩
    · rw [InsertPending_none_of_fEOP_none hE] at hI
      cases hI
    · rcases exi with _ | m
      · -- creation branch
        rcases hP : findParentFor (ts.length + 1) s ts s.rootId with _ | parent
        · rw [InsertPending_none_of_fPF_none hE hP] at hI
          cases hI
        · obtain ⟨r0, hr0, hr0t⟩ := hInv.root_live
          have hrs : (getNode s s.rootId).isSome := by rw [hr0]; rfl
          have hPlive : (getNode s parent).isSome := fPF_live _ hrs hP
          obtain ⟨pn, hpn⟩ := Option.isSome_iff_exists.mp hPlive
          have hparent_ne : parent ≠ s.nextId := Nat.ne_of_lt (hInv.ids_lt parent hPlive)
          have hnid_dead : getNode s s.nextId = none := by
            cases hd : getNode s s.nextId with
            | none => rfl
            | some x =>
              have : s.nextId < s.nextId := hInv.ids_lt _ (by rw [hd]; rfl)
              omega
          rw [@InsertPending_create_spec s ts [] rem parent hE hP pn hpn hparent_ne] at hI
          simp only [Option.some.injEq, Prod.mk.injEq] at hI
          obtain ⟨hs'eq, hnid, -⟩ := hI
          obtain ⟨P, d, hPd, hreachP, hsplit⟩ := walk_create hnp _ hE
          rw [hP] at hPd
          obtain rfl : parent = P := by simpa using hPd
          have hget : ∀ mid, getNode s' mid =
              if mid = parent then
                some { pn with Children := alPut pn.Children (rem.headD 0) s.nextId }
              else if mid = s.nextId then
                some { NewNode rem (some parent) with refCount := 1 }
              else getNode s mid := by
            intro mid
            rw [← hs'eq]
            exact @insert_create_getNode s rem parent pn hpn hparent_ne hnid_dead mid
          have hroot' : s'.rootId = s.rootId := by rw [← hs'eq]; rfl
          have htransfer : ∀ {b : Nat} {p : List Nat},
              ReachFrom s' s'.rootId b p → b ≠ s.nextId → ReachFrom s s.rootId b p := by
            intro b p hr
            induction hr with
            | refl =>
              intro _
              rw [hroot']
              exact ReachFrom.refl
            | @child pid p0 k cid n0 c0 hr0 hn hk hc ih =>
              intro hbne
              have hpidne : pid ≠ s.nextId := by
                intro hpe
                rw [hpe] at hn
                rw [hget s.nextId, if_neg (fun hh => hparent_ne hh.symm), if_pos rfl] at hn
                have hn0 : n0 = { NewNode rem (some parent) with refCount := 1 } := by
                  simpa using hn.symm
                rw [hn0] at hk
                simp [NewNode] at hk
              have hcs : ∃ cs, getNode s cid = some cs ∧ cs.Tokens = c0.Tokens := by
                rw [hget cid] at hc
                by_cases hcp : cid = parent
                · rw [if_pos hcp] at hc
                  have hcc : c0 = { pn with
                      Children := alPut pn.Children (rem.headD 0) s.nextId } := by
                    simpa using hc.symm
                  exact ⟨pn, hcp ▸ hpn, by rw [hcc]⟩
                · rw [if_neg hcp, if_neg hbne] at hc
                  exact ⟨c0, hc, rfl⟩
              obtain ⟨cs, hcs1, hcs2⟩ := hcs
              rw [← hcs2]
              by_cases hpp : pid = parent
              · rw [hget pid, if_pos hpp] at hn
                have hn0 : n0 = { pn with
                    Children := alPut pn.Children (rem.headD 0) s.nextId } := by
                  simpa using hn.symm
                rw [hn0] at hk
                dsimp only at hk
                rcases mem_alPut_elim _ _ _ _ _ hk with ⟨-, hcv⟩ | hmem
                · exact absurd hcv hbne
                · exact ReachFrom.child (ih hpidne)
                    (show getNode s pid = some pn by rw [hpp]; exact hpn) hmem hcs1
              · rw [hget pid, if_neg hpp, if_neg hpidne] at hn
                exact ReachFrom.child (ih hpidne) hn hk hcs1
          have hlast : ∀ b p, ReachFrom s' s'.rootId b p → b = s.nextId → p = ts := by
            intro b p hp
            cases hp with
            | refl =>
              intro hb
              exfalso
              have h1 : s.rootId < s.nextId := hInv.ids_lt _ hrs
              rw [hroot'] at hb
              omega
            | @child pid p0 k cid n0 c0 hr0 hn hk hc =>
              intro hb
              have hc0 : c0 = { NewNode rem (some parent) with refCount := 1 } := by
                rw [hb] at hc
                rw [hget s.nextId, if_neg (fun hh => hparent_ne hh.symm), if_pos rfl] at hc
                simpa using hc.symm
              have hpidne : pid ≠ s.nextId := by
                intro hpe
                rw [hpe] at hn
                rw [hget s.nextId, if_neg (fun hh => hparent_ne hh.symm), if_pos rfl] at hn
                have hn0 : n0 = { NewNode rem (some parent) with refCount := 1 } := by
                  simpa using hn.symm
                rw [hn0] at hk
                simp [NewNode] at hk
              have hpp : pid = parent := by
                by_contra hne
                rw [hget pid, if_neg hne, if_neg hpidne] at hn
                obtain ⟨cdead, hcdead, -, -⟩ := hInv.child_ok pid n0 k b hn hk
                rw [hb, hnid_dead] at hcdead
                cases hcdead
              have hr0' : ReachFrom s s.rootId parent p0 :=
                htransfer (hpp ▸ hr0) hparent_ne
              have hp0d : p0 = d := ReachesAt_unique hInv hr0' hreachP
              rw [hc0, hp0d]
              dsimp only [NewNode]
              exact hsplit.symm
          subst hnid
          intro p hp
          exact hlast _ _ hp rfl
      · -- reuse branch
        rcases hg : getNode s m with _ | n
        · rw [InsertPending_none_of_dead hE hg] at hI
          cases hI
        · rw [InsertPending_reuse_spec hE hg] at hI
          simp only [Option.some.injEq, Prod.mk.injEq] at hI
          obtain ⟨hs'eq, hnid, -⟩ := hI
          subst hnid
          obtain ⟨hwalk, -⟩ := walk_exact _ hE
          intro p hp
          have hsame : ∀ mid n', getNode s' mid = some n' → ∃ n0,
              getNode s mid = some n0 ∧ n0.Tokens = n'.Tokens ∧
              n0.Children = n'.Children := by
            intro mid n' hmid
            rw [← hs'eq] at hmid
            by_cases hm : mid = m
            · subst hm
              rw [getNode_setNode_self hg] at hmid
              have hnn : n' = { n with refCount := n.refCount + 1 } := by
                simpa using hmid.symm
              exact ⟨n, hg, by rw [hnn], by rw [hnn]⟩
            · rw [getNode_setNode_ne hm] at hmid
              exact ⟨n', hmid, rfl, rfl⟩
          have hroot' : s'.rootId = s.rootId := by rw [← hs'eq]; rfl
          have hp' : ReachFrom s s.rootId m p := by
            have h1 := ReachFrom_of_same_struct hsame hp
            rw [hroot'] at h1
            exact h1
          exact ReachesAt_unique hInv hp' hwalk

def C5ops : List Op :=
  [Op.insertPending [1, 2, 3], Op.poison 1 "boom", Op.insertPending [1, 2, 3]]

def C5state : Tree := (execOps C5ops).getD NewTree

/-- C5 as frozen is false: re-inserting a sequence whose node was
poisoned hangs the fresh node below the poisoned one, so its
root-to-node concatenation spells the sequence twice, not the logical
prefix it represents. -/
theorem C5_counterexample :
    (execOps C5ops).isSome = true ∧
    (getNode C5state 2).map Node.Tokens = some [1, 2, 3] ∧
    ReachesAt C5state 2 [1, 2, 3, 1, 2, 3] ∧
    ¬ ReachesAt C5state 2 [1, 2, 3] := by
  have hn0 : getNode C5state C5state.rootId =
      some ⟨[], [(1, 1)], none, 0, false, none, 0, false⟩ := by decide
  have hn1 : getNode C5state 1 =
      some ⟨[1, 2, 3], [(1, 2)], some 0, 0, true, some "boom", 1, false⟩ := by decide
  have hn2 : getNode C5state 2 =
      some ⟨[1, 2, 3], [], some 1, 0, false, none, 1, false⟩ := by decide
  have hk0 : ((1 : Nat), (1 : Nat)) ∈
      (⟨[], [(1, 1)], none, 0, false, none, 0, false⟩ : Node).Children := by decide
  have hk1 : ((1 : Nat), (2 : Nat)) ∈
      (⟨[1, 2, 3], [(1, 2)], some 0, 0, true, some "boom", 1, false⟩ : Node).Children := by
    decide
  have hre : ReachesAt C5state 2 [1, 2, 3, 1, 2, 3] :=
    ReachFrom.child (ReachFrom.child ReachFrom.refl hn0 hk0 hn1) hn1 hk1 hn2
  refine ⟨by decide, rfl, hre, ?_⟩
  intro hneg
  have hreach : Reach C5state :=
    execOps_ReachW C5ops C5state (by decide) (fun op _ => trivial)
  have hInv : Inv C5state := Reach_Inv hreach
  have h := ReachesAt_unique hInv hneg hre
  exact absurd h (by decide)

def C5wit : Tree := ((InsertPending NewTree [4, 5] []).map (fun r => r.1)).getD NewTree

/-- Witness for the amended C5: one insert into the empty tree. -/
theorem C5_witness :
    NPReach NewTree ∧ InsertPending NewTree [4, 5] [] = some (C5wit, 1, []) ∧
    ((∀ pid n k1 c1 k2 c2 m1 m2, getNode C5wit pid = some n →
      (k1, c1) ∈ n.Children → (k2, c2) ∈ n.Children →
      getNode C5wit c1 = some m1 → getNode C5wit c2 = some m2 →
      m1.Tokens.headD 0 = m2.Tokens.headD 0 → k1 = k2 ∧ c1 = c2) ∧
    (∀ mid p1 p2, ReachesAt C5wit mid p1 → ReachesAt C5wit mid p2 → p1 = p2) ∧
    (∀ p, ReachesAt C5wit 1 p → p = [4, 5])) :=
  ⟨ReachW.init, by decide, C5_radix_property ReachW.init (by decide)⟩

/-! ## Claim C6 -/

/-- C6: on a pending node (gate open, no stored error), `FinalizeNode`
succeeds, stores the handle and makes every `Wait` return success, while
`PoisonNode` succeeds and makes every `Wait` return exactly the stored
error; `Wait` is a pure function of the node, so repeated calls agree. -/
theorem C6_finalize_poison_wait {n : Node} (hopen : n.closedGate = false)
    (herr : n.err = none) (hd : Nat) (e : Err) :
    (∃ n1, FinalizeNode n hd = Except.ok n1 ∧ n1.CacheHandle = hd ∧
      Wait n1 = some none) ∧
    (∃ n2, PoisonNode n e = Except.ok n2 ∧ Wait n2 = some (some e)) := by
  constructor
  · refine ⟨{ n with CacheHandle := hd, closedGate := true }, ?_, rfl, ?_⟩
    · simp [FinalizeNode, closeGate, hopen]
    · simp [Wait, herr]
  · refine ⟨{ n with err := some e, closedGate := true }, ?_, ?_⟩
    · simp [PoisonNode, closeGate, hopen]
    · simp [Wait]

/-- Witness for C6 at a freshly created node. -/
theorem C6_witness :
    (NewNode [1] none).closedGate = false ∧ (NewNode [1] none).err = none ∧
    ((∃ n1, FinalizeNode (NewNode [1] none) 9 = Except.ok n1 ∧ n1.CacheHandle = 9 ∧
      Wait n1 = some none) ∧
    (∃ n2, PoisonNode (NewNode [1] none) "lost" = Except.ok n2 ∧
      Wait n2 = some (some "lost"))) :=
  ⟨rfl, rfl, C6_finalize_poison_wait rfl rfl 9 "lost"⟩

/-! ## Claim C7 -/

/-- C7: amended.  What holds of the LRU list is only gate-closure: every
member is a live node whose gate was closed (finalized or poisoned); and
an `Unpin` dropping the count to zero on a childless, gate-closed,
unlisted node pushes it to the front.  The frozen leaf/unpinned/ready
constraints fail: a poisoned node is pushed too, and a member re-pinned
by a later insert stays listed (see the counterexample). -/
theorem C7_lru_members_closed {s : Tree} (hs : Reach s) :
    (∀ nid ∈ s.lruList, ∃ n, getNode s nid = some n ∧ n.closedGate = true) ∧
    (∀ nid n, getNode s nid = some n → n.refCount = 1 → n.Children = [] →
      n.closedGate = true → n.lruElem = false →
      (Unpin s nid).lruList = nid :: s.lruList ∧
      getNode (Unpin s nid) nid = some { n with refCount := 0, lruElem := true }) := by
  refine ⟨Reach_LruClosed hs, ?_⟩
  intro nid n hg h1 h2 h3 h4
  exact Unpin_push hg h1 h2 h3 h4

def C7ops : List Op := [Op.insertPending [1], Op.finalize 1 7]

def C7state : Tree := (execOps C7ops).getD NewTree

/-- Witness for the amended C7: a finalized, still pinned, unlisted
leaf. -/
theorem C7_witness :
    Reach C7state ∧
    ((∀ nid ∈ C7state.lruList, ∃ n, getNode C7state nid = some n ∧
       n.closedGate = true) ∧
     (∀ nid n, getNode C7state nid = some n → n.refCount = 1 → n.Children = [] →
       n.closedGate = true → n.lruElem = false →
       (Unpin C7state nid).lruList = nid :: C7state.lruList ∧
       getNode (Unpin C7state nid) nid =
         some { n with refCount := 0, lruElem := true })) :=
  ⟨execOps_ReachW C7ops C7state (by decide) (fun op _ => trivial),
   C7_lru_members_closed
     (execOps_ReachW C7ops C7state (by decide) (fun op _ => trivial))⟩

def C7bad : List Op := [Op.insertPending [1], Op.finalize 1 7, Op.unpin 1,
  Op.insertPending [1], Op.insertPending [2], Op.poison 2 "boom", Op.unpin 2]

def C7badState : Tree := (execOps C7bad).getD NewTree

/-- C7 as frozen is false: after this public trace the LRU list holds a
poisoned node (id 2) and a node re-pinned to count 1 (id 1). -/
theorem C7_counterexample :
    (execOps C7bad).isSome = true ∧
    C7badState.lruList = [2, 1] ∧
    (getNode C7badState 2).map Node.err = some (some "boom") ∧
    (getNode C7badState 1).map Node.refCount = some 1 := by
  refine ⟨by decide, by decide, rfl, rfl⟩

/-! ## Claim C8 -/

/-- C8: amended.  `HealthCheckHandler` never consults the model state:
a GET request is answered `200 {"status":"ok"}` whether or not the
model is loaded, and a non-GET method gets `405`. -/
theorem C8_health_ignores_model_state :
    HealthCheckHandler false "GET" = (200, some [("status", "ok")]) ∧
    HealthCheckHandler true "GET" = (200, some [("status", "ok")]) ∧
    HealthCheckHandler false "POST" = (405, none) ∧
    HealthCheckHandler true "POST" = (405, none) := by
  refine ⟨by decide, by decide, by decide, by decide⟩

/-- C8 as frozen is false: with the model not loaded, GET still returns
`200`, never `503`. -/
theorem C8_counterexample :
    HealthCheckHandler false "GET" = (200, some [("status", "ok")]) ∧
    (HealthCheckHandler false "GET").1 ≠ 503 := by
  refine ⟨by decide, by decide⟩

/-! ## Claim C9 -/

/-- C9: closing the one-shot gate twice panics.  After a first
successful `FinalizeNode` or `PoisonNode`, any second `FinalizeNode` or
`PoisonNode` hits Go's `close of closed channel` panic. -/
theorem C9_second_close_panics {n : Node} (hopen : n.closedGate = false)
    (hd1 hd2 : Nat) (e1 e2 : Err) :
    (∃ n1, FinalizeNode n hd1 = Except.ok n1 ∧
      FinalizeNode n1 hd2 = Except.error "close of closed channel" ∧
      PoisonNode n1 e2 = Except.error "close of closed channel") ∧
    (∃ n2, PoisonNode n e1 = Except.ok n2 ∧
      FinalizeNode n2 hd2 = Except.error "close of closed channel" ∧
      PoisonNode n2 e2 = Except.error "close of closed channel") := by
  constructor
  · exact ⟨{ n with CacheHandle := hd1, closedGate := true },
      by simp [FinalizeNode, closeGate, hopen],
      by simp [FinalizeNode, closeGate],
      by simp [PoisonNode, closeGate]⟩
  · exact ⟨{ n with err := some e1, closedGate := true },
      by simp [PoisonNode, closeGate, hopen],
      by simp [FinalizeNode, closeGate],
      by simp [PoisonNode, closeGate]⟩

/-- Witness for C9 at a freshly created node. -/
theorem C9_witness :
    (NewNode [] none).closedGate = false ∧
    ((∃ n1, FinalizeNode (NewNode [] none) 1 = Except.ok n1 ∧
      FinalizeNode n1 2 = Except.error "close of closed channel" ∧
      PoisonNode n1 "b" = Except.error "close of closed channel") ∧
    (∃ n2, PoisonNode (NewNode [] none) "a" = Except.ok n2 ∧
      FinalizeNode n2 2 = Except.error "close of closed channel" ∧
      PoisonNode n2 "b" = Except.error "close of closed channel")) :=
  ⟨rfl, C9_second_close_panics rfl 1 2 "a" "b"⟩

/-! ## Claim C10 -/

/-- C10: inserting the empty sequence creates no node: the walk stops at
the root at once, so `InsertPending` returns the root id, merely bumps
the root's pin count, and leaves the id set and the fresh-id counter
unchanged. -/
theorem C10_empty_insert_returns_root {s : Tree} {r : Node}
    (hr : getNode s s.rootId = some r) (elog : List (List Nat)) :
    InsertPending s [] elog =
      some (setNode s s.rootId { r with refCount := r.refCount + 1 }, s.rootId, elog) ∧
    (setNode s s.rootId { r with refCount := r.refCount + 1 }).nodes.map Prod.fst =
      s.nodes.map Prod.fst ∧
    (setNode s s.rootId { r with refCount := r.refCount + 1 }).nextId = s.nextId ∧
    getNode (setNode s s.rootId { r with refCount := r.refCount + 1 }) s.rootId =
      some { r with refCount := r.refCount + 1 } := by
  have hE : findExactOrPending (List.length ([] : List Nat) + 1) s [] s.rootId =
      some (some s.rootId, []) := by
    rw [findExactOrPending, if_pos rfl]
  exact ⟨InsertPending_reuse_spec hE hr, setNode_ids _ _ _, rfl,
    getNode_setNode_self hr⟩

/-- Witness for C10 at the empty tree. -/
theorem C10_witness :
    getNode NewTree NewTree.rootId = some (NewNode [] none) ∧
    (InsertPending NewTree [] [] =
      some (setNode NewTree NewTree.rootId
        { NewNode [] none with refCount := (NewNode [] none).refCount + 1 },
        NewTree.rootId, []) ∧
    (setNode NewTree NewTree.rootId
      { NewNode [] none with refCount := (NewNode [] none).refCount + 1 }).nodes.map
        Prod.fst = NewTree.nodes.map Prod.fst ∧
    (setNode NewTree NewTree.rootId
      { NewNode [] none with refCount := (NewNode [] none).refCount + 1 }).nextId =
        NewTree.nextId ∧
    getNode (setNode NewTree NewTree.rootId
      { NewNode [] none with refCount := (NewNode [] none).refCount + 1 })
        NewTree.rootId =
      some { NewNode [] none with refCount := (NewNode [] none).refCount + 1 }) :=
  ⟨rfl, @C10_empty_insert_returns_root NewTree (NewNode [] none) rfl []⟩
